import Mathlib

/-!
Verification development for the Quote2CSV extraction/transformation pipeline.

The JavaScript sources (`src/services/dataExtractor.js`,
`src/services/dataTransformer.js`, `src/services/csvGenerator.js`,
`src/utils/constants.js`) are shallowly embedded below.  Strings are
`List Char`/`String`, JS numbers are modelled as `ℚ` (integers as `ℤ`/`ℕ`
where the source only ever produces integers), and the regular-expression
operations used by the source are implemented by a small backtracking
matcher (`mrunAtoms`/`mrunSegs`) that follows ECMAScript semantics for
exactly the constructs the source patterns use: literal runs (optionally
case-insensitive), single-character classes, greedy/lazy counted
repetition of a character class, flat (non-nested) capturing groups, and
zero-width lookahead assertions.
-/

set_option maxRecDepth 10000

/-- JS character classes are ASCII-based; we compare via code points. -/
def charCode (c : Char) : ℕ := c.toNat

/-- ECMAScript `\d`. -/
def jsDigit (c : Char) : Bool := 48 ≤ charCode c && charCode c ≤ 57

/-- ASCII letters; this is `[A-Za-z]`, and also `[A-Z]` under the `i` flag. -/
def jsAlpha (c : Char) : Bool :=
  (65 ≤ charCode c && charCode c ≤ 90) || (97 ≤ charCode c && charCode c ≤ 122)

/-- ECMAScript `\s` (WhiteSpace ∪ LineTerminator code points). -/
def jsWs (c : Char) : Bool :=
  (9 ≤ charCode c && charCode c ≤ 13) || charCode c = 32 || charCode c = 160 ||
  charCode c = 5760 || (8192 ≤ charCode c && charCode c ≤ 8202) ||
  charCode c = 8232 || charCode c = 8233 || charCode c = 8239 ||
  charCode c = 8287 || charCode c = 12288 || charCode c = 65279

/-- ECMAScript `\S`. -/
def jsNonWs (c : Char) : Bool := !jsWs c

/-- ECMAScript `\w`. -/
def jsWord (c : Char) : Bool := jsAlpha c || jsDigit c || c = '_'

/-- ECMAScript `.` (any char except line terminators). -/
def jsDot (c : Char) : Bool :=
  !(charCode c = 10 || charCode c = 13 || charCode c = 8232 || charCode c = 8233)

/-- ASCII lower-casing, the case folding relevant to the `i` flag for the
ASCII-only literals appearing in the source patterns. -/
def lowerAscii (c : Char) : Char :=
  if 65 ≤ charCode c && charCode c ≤ 90 then Char.ofNat (charCode c + 32) else c

/-- Character comparison used for literals: exact, or ASCII case-insensitive. -/
def litEq (ci : Bool) (a b : Char) : Bool :=
  if ci then lowerAscii a = lowerAscii b else a = b

/-- Does `s` start with the literal `cs` (under `litEq ci`)? -/
def litPref (ci : Bool) : List Char → List Char → Bool
  | [], _ => true
  | _ :: _, [] => false
  | a :: as, b :: bs => litEq ci a b && litPref ci as bs

/-- One atom of a regular expression: a literal run, a single character
from a class, a counted repetition of a character class (`lo` to `hi`
occurrences, `none` = unbounded; `lazy` selects `+?`-style minimal
matching, otherwise greedy), or a zero-width lookahead predicate on the
remaining input (used for `(?=...)`, `(?!...)` and `$`). -/
inductive Atom where
  | lit (ci : Bool) (cs : List Char)
  | cls (f : Char → Bool)
  | rep (f : Char → Bool) (lo : ℕ) (hi : Option ℕ) (lazy : Bool)
  | look (p : List Char → Bool)

/-- A pattern is a list of segments; a segment is an optional capture-group
index together with the atoms the group (or plain sequence) contains.  All
capture groups in the source patterns are flat (never nested), which this
representation captures exactly. -/
abbrev Seg := Option ℕ × List Atom

abbrev Caps := List (ℕ × List Char)

/-- Greedy backtracking helper: try consuming `j, j-1, …, lo` characters,
passing the rest of the input to the continuation `k`. -/
def tryD (k : List Char → Option α) (s : List Char) (lo : ℕ) : ℕ → Option α
  | 0 => if lo = 0 then k s else none
  | j + 1 => if j + 1 < lo then none else (k (s.drop (j + 1))).orElse fun _ => tryD k s lo j

/-- Lazy backtracking helper: try consuming `j, j+1, …` characters
(`b` attempts in total), passing the rest of the input to `k`. -/
def tryU (k : List Char → Option α) (s : List Char) : ℕ → ℕ → Option α
  | _, 0 => none
  | j, b + 1 => (k (s.drop j)).orElse fun _ => tryU k s (j + 1) b

/-- Match a list of atoms against a prefix of `s`, calling the continuation
`k` with the remaining input; backtracking explores longer/shorter
repetitions exactly in ECMAScript order (greedy: longest first; lazy:
shortest first). -/
def mrunAtoms : List Atom → List Char → (List Char → Option α) → Option α
  | [], s, k => k s
  | .lit ci cs :: rest, s, k =>
      if litPref ci cs s then mrunAtoms rest (s.drop cs.length) k else none
  | .cls f :: rest, s, k =>
      match s with
      | c :: s2 => if f c then mrunAtoms rest s2 k else none
      | [] => none
  | .look p :: rest, s, k => if p s then mrunAtoms rest s k else none
  | .rep f lo hi lz :: rest, s, k =>
      let run := (s.takeWhile f).length
      let m := match hi with | some h => min h run | none => run
      if lz then tryU (fun s2 => mrunAtoms rest s2 k) s lo (m + 1 - lo)
      else tryD (fun s2 => mrunAtoms rest s2 k) s lo m

/-- Match a whole pattern (list of segments) at the start of `s`; on success
returns the accumulated captures and the remaining input.  A capturing
segment records the characters its atoms consumed. -/
def mrunSegs : List Seg → List Char → Caps → Option (Caps × List Char)
  | [], s, caps => some (caps, s)
  | (g, atoms) :: rest, s, caps =>
      mrunAtoms atoms s fun s2 =>
        mrunSegs rest s2
          (match g with
           | some i => (i, s.take (s.length - s2.length)) :: caps
           | none => caps)

/-- Leftmost match: try the pattern at each successive start position
(ECMAScript `RegExp.prototype.exec` / `String.prototype.match` search).
Returns the captures, the suffix at the match position, and the suffix
after the match. -/
def findFirst (pat : List Seg) : List Char → Option (Caps × List Char × List Char)
  | [] =>
      match mrunSegs pat [] [] with
      | some (caps, r) => some (caps, [], r)
      | none => none
  | c :: t =>
      match mrunSegs pat (c :: t) [] with
      | some (caps, r) => some (caps, c :: t, r)
      | none => findFirst pat t

/-- Capture lookup: value of group `i`, empty if the group is absent. -/
def capGet (caps : Caps) (i : ℕ) : List Char :=
  ((caps.find? fun p => p.1 == i).map Prod.snd).getD []

/-- Replacement-template item: literal text or the value of a capture group. -/
inductive TItem where
  | litT (cs : List Char)
  | grpT (i : ℕ)

/-- Build the replacement text from a template and the match's captures. -/
def applyTmpl (tmpl : List TItem) (caps : Caps) : List Char :=
  tmpl.flatMap fun t =>
    match t with
    | .litT cs => cs
    | .grpT i => capGet caps i

/-- ECMAScript `String.prototype.replace` with a `/g` pattern: scan left to
right, replace each non-overlapping leftmost match, resume after the match.
`fuel` bounds the recursion; every source pattern consumes at least one
character per match, so `s.length + 1` fuel (supplied by the wrappers
below) always suffices. -/
def scanRepl (pat : List Seg) (tmpl : List TItem) : ℕ → List Char → List Char
  | 0, s => s
  | _ + 1, [] =>
      match mrunSegs pat [] [] with
      | some (caps, _) => applyTmpl tmpl caps
      | none => []
  | fuel + 1, c :: rest =>
      match mrunSegs pat (c :: rest) [] with
      | some (caps, r) =>
          if r.length = (c :: rest).length then
            applyTmpl tmpl caps ++ c :: scanRepl pat tmpl fuel rest
          else applyTmpl tmpl caps ++ scanRepl pat tmpl fuel r
      | none => c :: scanRepl pat tmpl fuel rest

/-- `String.prototype.replace` without the `/g` flag: replace only the
leftmost match (used by `cleanDescription`). -/
def replFirst (pat : List Seg) (tmpl : List TItem) (s : List Char) : List Char :=
  match findFirst pat s with
  | some (caps, pos, r) => s.take (s.length - pos.length) ++ applyTmpl tmpl caps ++ r
  | none => s

/-- Run a `/g` replacement with enough fuel: each match consumes at least
one character, so at most `s.length + 1` scan steps happen. -/
def runRepl (pat : List Seg) (tmpl : List TItem) (s : List Char) : List Char :=
  scanRepl pat tmpl (s.length + 1) s

/- Character classes appearing in the source patterns. -/

def digitComma (c : Char) : Bool := jsDigit c || c = ','

def dollarCls (c : Char) : Bool := c = '$'

def dotCls (c : Char) : Bool := c = '.'

def commaCls (c : Char) : Bool := c = ','

def digitDash (c : Char) : Bool := jsDigit c || c = '-'

def alnumWs (c : Char) : Bool := jsAlpha c || jsDigit c || jsWs c

def alphaWs (c : Char) : Bool := jsAlpha c || jsWs c

/-- `[A-Za-z0-9-]` (SVC product codes). -/
def svcCls (c : Char) : Bool := jsAlpha c || jsDigit c || c = '-'

/-- `[A-Za-z0-9.-]` (VCH product codes). -/
def vchCls (c : Char) : Bool := jsAlpha c || jsDigit c || c = '.' || c = '-'

/-- `[a-zA-Z0-9._%+-]` (email local part). -/
def emailLocal (c : Char) : Bool :=
  jsAlpha c || jsDigit c || c = '.' || c = '_' || c = '%' || c = '+' || c = '-'

/-- `[a-zA-Z0-9.-]` (email domain part). -/
def emailDom (c : Char) : Bool := jsAlpha c || jsDigit c || c = '.' || c = '-'

/- Lookahead predicates.  `\s+<word>` as a lookahead alternative is
deterministic: each repetition of `\s+` consumes a whitespace character and
none of the anchor words starts with whitespace, so the alternative matches
a prefix iff the input starts with one whitespace character and, after all
leading whitespace, with the word (case-insensitively). -/

def wsThenLit (cs : List Char) (s : List Char) : Bool :=
  match s with
  | c :: _ => jsWs c && litPref true cs (s.dropWhile jsWs)
  | [] => false

/-- `(?!\d)`. -/
def negNextDigit (s : List Char) : Bool :=
  match s with
  | c :: _ => !jsDigit c
  | [] => true

/-- `$` (no `m` flag): end of input. -/
def atEnd (s : List Char) : Bool := s.isEmpty

/- `normalizePdfText` (dataExtractor.js lines 10-48): the replacement
passes, in source order. -/

/-- `/(\w)\s+-\s+(\w)/g` → `'$1-$2'`. -/
def hyphenPat : List Seg :=
  [(some 1, [.cls jsWord]),
   (none, [.rep jsWs 1 none false, .lit false ['-'], .rep jsWs 1 none false]),
   (some 2, [.cls jsWord])]

def hyphenTmpl : List TItem := [.grpT 1, .litT ['-'], .grpT 2]

/-- `/(-[A-Za-z])\s+(\d)/g` → `'$1$2'`. -/
def splitCodePat : List Seg :=
  [(some 1, [.lit false ['-'], .cls jsAlpha]),
   (none, [.rep jsWs 1 none false]),
   (some 2, [.cls jsDigit])]

def joinTmpl : List TItem := [.grpT 1, .grpT 2]

/-- `/(\d{3})\s+(\d{1})(?!\d)/g` → `'$1$2'`. -/
def splitYearPat : List Seg :=
  [(some 1, [.rep jsDigit 3 (some 3) false]),
   (none, [.rep jsWs 1 none false]),
   (some 2, [.rep jsDigit 1 (some 1) false]),
   (none, [.look negNextDigit])]

/-- `/(\d)\s+(\d)\s*,/g` → `'$1$2,'`. -/
def splitDayPat : List Seg :=
  [(some 1, [.cls jsDigit]),
   (none, [.rep jsWs 1 none false]),
   (some 2, [.cls jsDigit]),
   (none, [.rep jsWs 0 none false, .lit false [',']])]

def splitDayTmpl : List TItem := [.grpT 1, .grpT 2, .litT [',']]

/-- `/<a>\s*<b>/gi` → a fixed word (the split-word repair rules). -/
def wordFixPat (a b : String) : List Seg :=
  [(none, [.lit true a.data, .rep jsWs 0 none false, .lit true b.data])]

/-- `/VDURA\s+Care/gi` → `'VDURA Care'`. -/
def vduraCareWordPat : List Seg :=
  [(none, [.lit true "VDURA".data, .rep jsWs 1 none false, .lit true "Care".data])]

/-- `/(\S+)\s*@\s*(\S+)/g` → `'$1@$2'`. -/
def emailJoinPat : List Seg :=
  [(some 1, [.rep jsNonWs 1 none false]),
   (none, [.rep jsWs 0 none false, .lit false ['@'], .rep jsWs 0 none false]),
   (some 2, [.rep jsNonWs 1 none false])]

def emailJoinTmpl : List TItem := [.grpT 1, .litT ['@'], .grpT 2]

/-- `/\$\s+(\d)/g` with replacement string `'$$1'`.  In an ECMAScript
replacement string `$$` is an escaped literal dollar sign and the `1` that
follows is literal text, so the replacement text is the two characters
`$1` and the captured digit is dropped. -/
def currencyJoinPat : List Seg :=
  [(none, [.lit false ['$'], .rep jsWs 1 none false]),
   (some 1, [.cls jsDigit])]

def currencyJoinTmpl : List TItem := [.litT ['$', '1']]

/-- `/\s+/g` → `' '`. -/
def wsPat : List Seg := [(none, [.rep jsWs 1 none false])]

def spaceTmpl : List TItem := [.litT [' ']]

def litTmpl (w : String) : List TItem := [.litT w.data]

/-- `normalizePdfText` (dataExtractor.js lines 10-48). -/
def normalizePdfText (text : String) : String :=
  let n := text.data
  let n := runRepl hyphenPat hyphenTmpl n
  let n := runRepl splitCodePat joinTmpl n
  let n := runRepl splitYearPat joinTmpl n
  let n := runRepl splitDayPat splitDayTmpl n
  let n := runRepl (wordFixPat "Quot" "ation") (litTmpl "Quotation") n
  let n := runRepl (wordFixPat "Com" "pany") (litTmpl "Company") n
  let n := runRepl (wordFixPat "Q" "TY") (litTmpl "QTY") n
  let n := runRepl vduraCareWordPat (litTmpl "VDURA Care") n
  let n := runRepl (wordFixPat "Phy" "sical") (litTmpl "Physical") n
  let n := runRepl (wordFixPat "Sub" "scription") (litTmpl "Subscription") n
  let n := runRepl (wordFixPat "Sup" "port") (litTmpl "Support") n
  let n := runRepl (wordFixPat "Soft" "ware") (litTmpl "Software") n
  let n := runRepl (wordFixPat "Dis" "counted") (litTmpl "Discounted") n
  let n := runRepl (wordFixPat "Ex" "tended") (litTmpl "Extended") n
  let n := runRepl emailJoinPat emailJoinTmpl n
  let n := runRepl currencyJoinPat currencyJoinTmpl n
  let n := runRepl wsPat spaceTmpl n
  ⟨n⟩

/- `parseDate` (dataExtractor.js lines 53-90). -/

/-- `/(\d)\s+(\d)/g` → `'$1$2'` (the in-date digit repair). -/
def cleanDigitsPat : List Seg :=
  [(some 1, [.cls jsDigit]),
   (none, [.rep jsWs 1 none false]),
   (some 2, [.cls jsDigit])]

/-- `/^\d{1,2}\/\d{1,2}\/\d{4}$/` as an anchored pattern: tried only at
position 0, with `$` as an end-of-input lookahead. -/
def mmddyyyyPat : List Seg :=
  [(none, [.rep jsDigit 1 (some 2) false, .lit false ['/'],
           .rep jsDigit 1 (some 2) false, .lit false ['/'],
           .rep jsDigit 4 (some 4) false, .look atEnd])]

def isMMDDYYYY (cs : List Char) : Bool := (mrunSegs mmddyyyyPat cs []).isSome

/-- The fixed month-name table. -/
def monthTable : List (String × String) :=
  [("january", "01"), ("jan", "01"),
   ("february", "02"), ("feb", "02"),
   ("march", "03"), ("mar", "03"),
   ("april", "04"), ("apr", "04"),
   ("may", "05"),
   ("june", "06"), ("jun", "06"),
   ("july", "07"), ("jul", "07"),
   ("august", "08"), ("aug", "08"),
   ("september", "09"), ("sep", "09"), ("sept", "09"),
   ("october", "10"), ("oct", "10"),
   ("november", "11"), ("nov", "11"),
   ("december", "12"), ("dec", "12")]

/-- `/(\w+)\s*(\d{1,2})\s*,?\s*(\d{4})/i`. -/
def monthNamePat : List Seg :=
  [(some 1, [.rep jsWord 1 none false]),
   (none, [.rep jsWs 0 none false]),
   (some 2, [.rep jsDigit 1 (some 2) false]),
   (none, [.rep jsWs 0 none false, .rep commaCls 0 (some 1) false,
           .rep jsWs 0 none false]),
   (some 3, [.rep jsDigit 4 (some 4) false])]

/-- `String.prototype.padStart(2, '0')`. -/
def padStart2 (cs : List Char) : List Char :=
  if 2 ≤ cs.length then cs else if cs.length = 1 then '0' :: cs else ['0', '0']

def lowerList (cs : List Char) : List Char := cs.map lowerAscii

/-- `parseDate` (dataExtractor.js lines 53-90). -/
def parseDate (dateStr : String) : String :=
  if dateStr = "" then ""
  else
    let cleaned := runRepl cleanDigitsPat joinTmpl dateStr.data
    if isMMDDYYYY cleaned then ⟨cleaned⟩
    else
      match findFirst monthNamePat cleaned with
      | some (caps, _, _) =>
          let month :=
            ((monthTable.find? fun p =>
                p.1 == String.mk (lowerList (capGet caps 1))).map Prod.snd).getD "01"
          ⟨month.data ++ '/' :: padStart2 (capGet caps 2) ++ '/' :: capGet caps 3⟩
      | none => dateStr

/- `parseCurrency` (dataExtractor.js lines 95-100). -/

def digitsVal (cs : List Char) : ℕ :=
  cs.foldl (fun a c => 10 * a + (charCode c - 48)) 0

/-- The characters removed by `str.replace(/[$,\s]/g, '')`. -/
def stripCur (c : Char) : Bool := c = '$' || c = ',' || jsWs c

/-- `parseFloat`, restricted to the decimal shapes that can reach it here
(optional leading whitespace and sign, integer digits, optional fraction;
the exponent form never occurs in the inputs this program produces).
`none` models `NaN`. -/
def parseFloatJS (cs : List Char) : Option ℚ :=
  let t := cs.dropWhile jsWs
  match t with
  | '-' :: r => (parseFloatMag r).map (fun q => -q)
  | '+' :: r => parseFloatMag r
  | r => parseFloatMag r
where
  parseFloatMag (u : List Char) : Option ℚ :=
    let ip := u.takeWhile jsDigit
    match u.dropWhile jsDigit with
    | '.' :: w =>
        let fp := w.takeWhile jsDigit
        if ip.isEmpty && fp.isEmpty then none
        else some ((digitsVal ip : ℚ) + (digitsVal fp : ℚ) / 10 ^ fp.length)
    | _ => if ip.isEmpty then none else some (digitsVal ip : ℚ)

/-- `parseCurrency` (dataExtractor.js lines 95-100): `'' → 0`, strip
`[$,\s]`, `parseFloat(cleaned) || 0`. -/
def parseCurrency (str : String) : ℚ :=
  if str = "" then 0
  else (parseFloatJS (str.data.filter fun c => !stripCur c)).getD 0

/-- `parseInt` (base 10) as applied in `extractLineItems`: its arguments
are exactly the `(\d+)` captures, i.e. non-empty all-digit strings. -/
def parseIntDec (cs : List Char) : ℤ := (digitsVal cs : ℤ)

/- `extractHeader` (dataExtractor.js lines 105-166). -/

structure QuoteHeader where
  quoteNumber : String
  quoteDate : String
  expires : String
  customer : String
  partner : String
  preparedBy : String
  email : String
deriving DecidableEq, Repr

/-- JS `String.prototype.trim` (same whitespace set as `\s`). -/
def trimJS (cs : List Char) : List Char :=
  ((cs.dropWhile jsWs).reverse.dropWhile jsWs).reverse

/-- `/Quote\s*Number\s*(\d+[-\d]*)/i`. -/
def quoteNumberPat : List Seg :=
  [(none, [.lit true "Quote".data, .rep jsWs 0 none false,
           .lit true "Number".data, .rep jsWs 0 none false]),
   (some 1, [.rep jsDigit 1 none false, .rep digitDash 0 none false])]

/-- `/Quote\s*Date\s*([A-Za-z]+\s*\d{1,2}\s*,?\s*\d{4})/i`. -/
def quoteDatePat : List Seg :=
  [(none, [.lit true "Quote".data, .rep jsWs 0 none false,
           .lit true "Date".data, .rep jsWs 0 none false]),
   (some 1, [.rep jsAlpha 1 none false, .rep jsWs 0 none false,
             .rep jsDigit 1 (some 2) false, .rep jsWs 0 none false,
             .rep commaCls 0 (some 1) false, .rep jsWs 0 none false,
             .rep jsDigit 4 (some 4) false])]

/-- `/Quote\s*Expires\s*([A-Za-z]+\s*\d{1,2}\s*,?\s*\d{4})/i`. -/
def quoteExpiresPat : List Seg :=
  [(none, [.lit true "Quote".data, .rep jsWs 0 none false,
           .lit true "Expires".data, .rep jsWs 0 none false]),
   (some 1, [.rep jsAlpha 1 none false, .rep jsWs 0 none false,
             .rep jsDigit 1 (some 2) false, .rep jsWs 0 none false,
             .rep commaCls 0 (some 1) false, .rep jsWs 0 none false,
             .rep jsDigit 4 (some 4) false])]

/-- `/Customer\s*Name\s+([A-Za-z0-9\s]+?)(?=\s+Quote|\s+Partner|\s+SOFTWARE)/i`. -/
def customerNamePat : List Seg :=
  [(none, [.lit true "Customer".data, .rep jsWs 0 none false,
           .lit true "Name".data, .rep jsWs 1 none false]),
   (some 1, [.rep alnumWs 1 none true]),
   (none, [.look fun s => wsThenLit "Quote".data s || wsThenLit "Partner".data s ||
                          wsThenLit "SOFTWARE".data s])]

/-- `/Company\s+([A-Za-z0-9\s]+?)(?=\s+Quote|\s+SOFTWARE)/i`. -/
def companyPat : List Seg :=
  [(none, [.lit true "Company".data, .rep jsWs 1 none false]),
   (some 1, [.rep alnumWs 1 none true]),
   (none, [.look fun s => wsThenLit "Quote".data s || wsThenLit "SOFTWARE".data s])]

/-- `/Partner\s*Name\s+([A-Za-z0-9\s]+?)(?=\s+SOFTWARE|\s+COMMODITY)/i`. -/
def partnerPat : List Seg :=
  [(none, [.lit true "Partner".data, .rep jsWs 0 none false,
           .lit true "Name".data, .rep jsWs 1 none false]),
   (some 1, [.rep alnumWs 1 none true]),
   (none, [.look fun s => wsThenLit "SOFTWARE".data s || wsThenLit "COMMODITY".data s])]

/-- `/Prepared\s*By\s+([A-Za-z\s]+?)(?=\s+Email|\s+Quote)/i`. -/
def preparedByPat : List Seg :=
  [(none, [.lit true "Prepared".data, .rep jsWs 0 none false,
           .lit true "By".data, .rep jsWs 1 none false]),
   (some 1, [.rep alphaWs 1 none true]),
   (none, [.look fun s => wsThenLit "Email".data s || wsThenLit "Quote".data s])]

/-- `/([a-zA-Z0-9._%+-]+@[a-zA-Z0-9.-]+\.[a-zA-Z]{2,})/i`. -/
def emailPat : List Seg :=
  [(some 1, [.rep emailLocal 1 none false, .lit false ['@'],
             .rep emailDom 1 none false, .lit false ['.'],
             .rep jsAlpha 2 none false])]

/-- `extractHeader` (dataExtractor.js lines 105-166). -/
def extractHeader (text : String) : QuoteHeader :=
  let normalized := (normalizePdfText text).data
  { quoteNumber :=
      match findFirst quoteNumberPat normalized with
      | some (caps, _, _) => ⟨capGet caps 1⟩
      | none => ""
    quoteDate :=
      match findFirst quoteDatePat normalized with
      | some (caps, _, _) => parseDate ⟨capGet caps 1⟩
      | none => ""
    expires :=
      match findFirst quoteExpiresPat normalized with
      | some (caps, _, _) => parseDate ⟨capGet caps 1⟩
      | none => ""
    customer :=
      match findFirst customerNamePat normalized with
      | some (caps, _, _) => ⟨trimJS (capGet caps 1)⟩
      | none =>
          match findFirst companyPat normalized with
          | some (caps, _, _) => ⟨trimJS (capGet caps 1)⟩
          | none => ""
    partner :=
      match findFirst partnerPat normalized with
      | some (caps, _, _) => ⟨trimJS (capGet caps 1)⟩
      | none => ""
    preparedBy :=
      match findFirst preparedByPat normalized with
      | some (caps, _, _) => ⟨trimJS (capGet caps 1)⟩
      | none => ""
    email :=
      match findFirst emailPat normalized with
      | some (caps, _, _) => ⟨capGet caps 1⟩
      | none => "" }

/- `cleanDescription` (dataExtractor.js lines 274-289). -/

/-- `/<word>.*$/i` (single replacement, no `g` flag). -/
def tailPat (w : String) : List Seg :=
  [(none, [.lit true w.data, .rep jsDot 0 none false, .look atEnd])]

/-- `/Total\s+<word>.*$/i`. -/
def totalTailPat (w : String) : List Seg :=
  [(none, [.lit true "Total".data, .rep jsWs 1 none false, .lit true w.data,
           .rep jsDot 0 none false, .look atEnd])]

def emptyTmpl : List TItem := []

/-- `cleanDescription` (dataExtractor.js lines 274-289). -/
def cleanDescription (desc : List Char) : List Char :=
  if desc.isEmpty then []
  else
    let d := trimJS desc
    let d := runRepl wsPat spaceTmpl d
    let d := replFirst (tailPat "PART NO.") emptyTmpl d
    let d := replFirst (tailPat "DESCRIPTION") emptyTmpl d
    let d := replFirst (tailPat "QTY") emptyTmpl d
    let d := replFirst (tailPat "MONTHS") emptyTmpl d
    let d := replFirst (tailPat "LIST PRICE") emptyTmpl d
    let d := replFirst (tailPat "DISCOUNTED") emptyTmpl d
    let d := replFirst (tailPat "EXTENDED") emptyTmpl d
    let d := replFirst (totalTailPat "Software") emptyTmpl d
    let d := replFirst (totalTailPat "Hardware") emptyTmpl d
    trimJS d

/- `extractLineItems` (dataExtractor.js lines 183-269). -/

structure LineItem where
  partNo : String
  description : String
  qty : ℤ
  months : Option ℤ
  listPrice : ℚ
  discountPrice : ℚ
  extendedPrice : ℚ
deriving DecidableEq, Repr

/-- The three currency fields `\$?([\d,]+\.?\d*)` share this group body. -/
def curAtoms : List Atom :=
  [.rep digitComma 1 none false, .rep dotCls 0 (some 1) false,
   .rep jsDigit 0 none false]

/-- Separator `\s+\$?` before each currency group. -/
def curSep : Seg := (none, [.rep jsWs 1 none false, .rep dollarCls 0 (some 1) false])

/-- `/(VDP-VDURACare-\d+-[A-Z]+)\s+(.+?)\s+(\d+)\s+(\d+)\s+\$?([\d,]+\.?\d*)\s+\$?([\d,]+\.?\d*)\s+\$?([\d,]+\.?\d*)/gi`. -/
def vduraCareLinePat : List Seg :=
  [(some 1, [.lit true "VDP-VDURACare-".data, .rep jsDigit 1 none false,
             .lit true ['-'], .rep jsAlpha 1 none false]),
   (none, [.rep jsWs 1 none false]),
   (some 2, [.rep jsDot 1 none true]),
   (none, [.rep jsWs 1 none false]),
   (some 3, [.rep jsDigit 1 none false]),
   (none, [.rep jsWs 1 none false]),
   (some 4, [.rep jsDigit 1 none false]),
   curSep, (some 5, curAtoms),
   curSep, (some 6, curAtoms),
   curSep, (some 7, curAtoms)]

/-- `/(SVC-[A-Za-z0-9-]+)\s+(.+?)\s+(\d+)\s+\$?([\d,]+\.?\d*)\s+\$?([\d,]+\.?\d*)\s+\$?([\d,]+\.?\d*)/gi`. -/
def svcLinePat : List Seg :=
  [(some 1, [.lit true "SVC-".data, .rep svcCls 1 none false]),
   (none, [.rep jsWs 1 none false]),
   (some 2, [.rep jsDot 1 none true]),
   (none, [.rep jsWs 1 none false]),
   (some 3, [.rep jsDigit 1 none false]),
   curSep, (some 4, curAtoms),
   curSep, (some 5, curAtoms),
   curSep, (some 6, curAtoms)]

/-- `/(VCH-[A-Za-z0-9.-]+)\s+(.+?)\s+(\d+)\s+\$?([\d,]+\.?\d*)\s+\$?([\d,]+\.?\d*)\s+\$?([\d,]+\.?\d*)/gi`. -/
def vchLinePat : List Seg :=
  [(some 1, [.lit true "VCH-".data, .rep vchCls 1 none false]),
   (none, [.rep jsWs 1 none false]),
   (some 2, [.rep jsDot 1 none true]),
   (none, [.rep jsWs 1 none false]),
   (some 3, [.rep jsDigit 1 none false]),
   curSep, (some 4, curAtoms),
   curSep, (some 5, curAtoms),
   curSep, (some 6, curAtoms)]

/-- Dedup key `` `${code}-${match[3]}-${match[4]}` `` of the VDURACare loop:
part number, raw QTY text, raw MONTHS text. -/
def keyCare (caps : Caps) : List Char :=
  capGet caps 1 ++ '-' :: capGet caps 3 ++ '-' :: capGet caps 4

/-- Dedup key `` `${code}-${match[3]}-${match[6]}` `` of the SVC and VCH
loops: part number, raw QTY text, raw EXTENDED price text. -/
def keySvcVch (caps : Caps) : List Char :=
  capGet caps 1 ++ '-' :: capGet caps 3 ++ '-' :: capGet caps 6

def mkCare (caps : Caps) : LineItem :=
  { partNo := ⟨capGet caps 1⟩
    description := ⟨cleanDescription (capGet caps 2)⟩
    qty := parseIntDec (capGet caps 3)
    months := some (parseIntDec (capGet caps 4))
    listPrice := parseCurrency ⟨capGet caps 5⟩
    discountPrice := parseCurrency ⟨capGet caps 6⟩
    extendedPrice := parseCurrency ⟨capGet caps 7⟩ }

def mkSvcVch (caps : Caps) : LineItem :=
  { partNo := ⟨capGet caps 1⟩
    description := ⟨cleanDescription (capGet caps 2)⟩
    qty := parseIntDec (capGet caps 3)
    months := none
    listPrice := parseCurrency ⟨capGet caps 4⟩
    discountPrice := parseCurrency ⟨capGet caps 5⟩
    extendedPrice := parseCurrency ⟨capGet caps 6⟩ }

/-- One `while ((match = pattern.exec(normalized)) !== null)` loop with its
`seen` set: emit an item per match whose key is new.  The source patterns
always consume at least one character per match (a zero-width match, which
would hang the JS loop, stops here); `fuel = length + 1` therefore covers
every iteration. -/
def execDedup (pat : List Seg) (key : Caps → List Char) (mk : Caps → LineItem) :
    ℕ → List Char → List (List Char) → List LineItem
  | 0, _, _ => []
  | fuel + 1, s, seen =>
      match findFirst pat s with
      | none => []
      | some (caps, pos, r) =>
          if r.length = pos.length then []
          else if key caps ∈ seen then execDedup pat key mk fuel r seen
          else mk caps :: execDedup pat key mk fuel r (key caps :: seen)

/-- `extractLineItems` (dataExtractor.js lines 183-269): the three family
loops run in order (VDURACare, then SVC, then VCH), each appending its
items to the shared `items` array. -/
def extractLineItems (text : String) : List LineItem :=
  let normalized := (normalizePdfText text).data
  let fuel := normalized.length + 1
  execDedup vduraCareLinePat keyCare mkCare fuel normalized [] ++
  execDedup svcLinePat keySvcVch mkSvcVch fuel normalized [] ++
  execDedup vchLinePat keySvcVch mkSvcVch fuel normalized []

/- constants.js. -/

structure SoftwareChildDef where
  code : String
  description : String
deriving DecidableEq, Repr

structure SupportChildDef where
  code : String
  fixedPrice : ℚ
  description : String
deriving DecidableEq, Repr

structure TierChildDefs where
  software : SoftwareChildDef
  support : SupportChildDef
deriving DecidableEq, Repr

/-- `VDURACARE_CHILDREN` (constants.js lines 4-27): the static child-item
catalog, keyed by tier; property lookup on the object is `none` for any
other tier. -/
def VDURACARE_CHILDREN (tier : String) : Option TierChildDefs :=
  if tier = "HP" then
    some { software := { code := "VDP-SW-P-10-HP"
                         description := "VDURA Data Platform – Physical, 10TB, High Performance Tier, One Month Subscription Term" }
           support := { code := "HW-Support-HP-NBD"
                        fixedPrice := 3
                        description := "VDURA Care – Physical 10TB, High Performance Tier, Basic Support" } }
  else if tier = "C" then
    some { software := { code := "VDP-SW-P-10-C"
                         description := "VDURA Data Platform – Physicial, 10TB, Capacity Tier, One Month Subscription Term" }
           support := { code := "HW-Support-C-NBD"
                        fixedPrice := 3 / 10
                        description := "VDURA Care – Physical 10TB, Capacity Tier, Basic Support" } }
  else none

/-- `VDURACARE_PATTERN` (constants.js line 30): `/VDP-VDURACare-\d+-(\w+)/`
(no flags, hence case-sensitive, searched anywhere in the string). -/
def VDURACARE_PATTERN : List Seg :=
  [(none, [.lit false "VDP-VDURACare-".data, .rep jsDigit 1 none false,
           .lit false ['-']]),
   (some 1, [.rep jsWord 1 none false])]

/-- `CSV_HEADERS` (constants.js lines 33-54). -/
def CSV_HEADERS : List String :=
  ["Quote Date", "Opportunity ID", "Customer Name", "Partner Name",
   "Prepared By", "Email", "Quote Number", "Base Product Code",
   "Base Description", "Product Code", "Parent Product Code", "List Price",
   "Discount Percentage", "Discount Price", "Option QTY", "Month",
   "Extended Price", "Option Description", "Quote Expires", "Status"]

def DEFAULT_STATUS : String := "New"

def BASE_PRODUCT_CODE : String := "v5000"

def BASE_DESCRIPTION : String := "v5000"

/- dataTransformer.js. -/

/-- `calculateDiscountPercentage` (dataTransformer.js lines 7-10). -/
def calculateDiscountPercentage (listPrice discountPrice : ℚ) : ℚ :=
  if listPrice = 0 then 0 else (listPrice - discountPrice) / listPrice * 100

/-- Little-endian decimal digits of `n` (`fuel ≥ n` makes it total and
structurally recursive). -/
def natDigitsAux : ℕ → ℕ → List ℕ
  | 0, _ => []
  | _ + 1, 0 => []
  | fuel + 1, n + 1 => (n + 1) % 10 :: natDigitsAux fuel ((n + 1) / 10)

/-- Decimal rendering of a natural number, as `String(n)` produces it. -/
def natToChars (n : ℕ) : List Char :=
  if n = 0 then ['0']
  else ((natDigitsAux n n).reverse).map fun d => Char.ofNat (48 + d)

/-- `formatPrice` (dataTransformer.js lines 15-18): `Number(num).toFixed(2)`.
Per the ECMAScript `toFixed` algorithm the sign is split off first and the
digits come from the integer `n` closest to `100·|x|`, larger on ties,
i.e. `n = ⌊100·|x| + 1/2⌋`; the magnitudes this program produces are far
below the `10²¹` threshold where `toFixed` falls back to exponential
notation.  (The `null`/`undefined`/`''` guard of the source concerns
arguments that are not numbers; every call site passes a number.) -/
def formatPrice (num : ℚ) : String :=
  let n : ℕ := (Int.floor (100 * |num| + 1 / 2)).toNat
  let ds := natToChars (n / 100) ++
    '.' :: [Char.ofNat (48 + n / 10 % 10), Char.ofNat (48 + n % 10)]
  if num < 0 then ⟨'-' :: ds⟩ else ⟨ds⟩

/-- A JavaScript field value as stored in a row object: a string, an
integer-valued number, or null/undefined. -/
inductive JVal where
  | vstr (s : String)
  | vint (n : ℤ)
  | vnull
deriving DecidableEq, Repr

structure OutputRow where
  quoteDate : JVal
  opportunityId : JVal
  customerName : JVal
  partnerName : JVal
  preparedBy : JVal
  email : JVal
  quoteNumber : JVal
  baseProductCode : JVal
  baseDescription : JVal
  productCode : JVal
  parentProductCode : JVal
  listPrice : JVal
  discountPercentage : JVal
  discountPrice : JVal
  optionQty : JVal
  month : JVal
  extendedPrice : JVal
  optionDescription : JVal
  quoteExpires : JVal
  status : JVal
deriving DecidableEq, Repr

/-- `createRow` (dataTransformer.js lines 80-105).  `item.months || ''`
evaluates to `''` both when `months` is `null` and when it is `0` (zero is
falsy); `parentProductCode || ''` maps the `null` argument to `''`. -/
def createRow (header : QuoteHeader) (item : LineItem)
    (opportunityId baseProductCode : String) (parentProductCode : Option String) :
    OutputRow :=
  let discountPercentage := calculateDiscountPercentage item.listPrice item.discountPrice
  { quoteDate := .vstr header.quoteDate
    opportunityId := .vstr opportunityId
    customerName := .vstr header.customer
    partnerName := .vstr header.partner
    preparedBy := .vstr header.preparedBy
    email := .vstr header.email
    quoteNumber := .vstr header.quoteNumber
    baseProductCode := .vstr baseProductCode
    baseDescription := .vstr BASE_DESCRIPTION
    productCode := .vstr item.partNo
    parentProductCode := .vstr (parentProductCode.getD "")
    listPrice := .vstr (formatPrice item.listPrice)
    discountPercentage := .vstr (formatPrice discountPercentage)
    discountPrice := .vstr (formatPrice item.discountPrice)
    optionQty := .vint item.qty
    month :=
      match item.months with
      | some m => if m = 0 then .vstr "" else .vint m
      | none => .vstr ""
    extendedPrice := .vstr (formatPrice item.extendedPrice)
    optionDescription := .vstr item.description
    quoteExpires := .vstr header.expires
    status := .vstr DEFAULT_STATUS }

/-- `createVduraCareChildRow` (dataTransformer.js lines 121-148).
`parentItem.months || 1` evaluates to `1` both when `months` is `null` and
when it is `0`. -/
def createVduraCareChildRow (header : QuoteHeader) (parentItem : LineItem)
    (opportunityId baseProductCode childCode childDescription : String)
    (childPrice : ℚ) (parentProductCode : String) : OutputRow :=
  let qty := parentItem.qty
  let months : ℤ :=
    match parentItem.months with
    | some m => if m = 0 then 1 else m
    | none => 1
  let extendedPrice := childPrice * (qty : ℚ) * (months : ℚ)
  { quoteDate := .vstr header.quoteDate
    opportunityId := .vstr opportunityId
    customerName := .vstr header.customer
    partnerName := .vstr header.partner
    preparedBy := .vstr header.preparedBy
    email := .vstr header.email
    quoteNumber := .vstr header.quoteNumber
    baseProductCode := .vstr baseProductCode
    baseDescription := .vstr BASE_DESCRIPTION
    productCode := .vstr childCode
    parentProductCode := .vstr parentProductCode
    listPrice := .vstr (formatPrice childPrice)
    discountPercentage := .vstr (formatPrice 0)
    discountPrice := .vstr (formatPrice childPrice)
    optionQty := .vint qty
    month := .vint months
    extendedPrice := .vstr (formatPrice extendedPrice)
    optionDescription := .vstr childDescription
    quoteExpires := .vstr header.expires
    status := .vstr DEFAULT_STATUS }

/-- The `for (const item of lineItems)` loop of `transformData`
(dataTransformer.js lines 26-72), with `rows` as the accumulator array. -/
def transformGo (header : QuoteHeader) (opportunityId baseProductCode : String) :
    List LineItem → List OutputRow → List OutputRow
  | [], rows => rows
  | item :: rest, rows =>
      match findFirst VDURACARE_PATTERN item.partNo.data with
      | some (caps, _, _) =>
          let tier : String := ⟨capGet caps 1⟩
          match VDURACARE_CHILDREN tier with
          | some childDefs =>
              let supportPrice := childDefs.support.fixedPrice
              let softwarePrice := item.discountPrice - supportPrice
              transformGo header opportunityId baseProductCode rest
                (rows ++ [createRow header item opportunityId baseProductCode none,
                  createVduraCareChildRow header item opportunityId baseProductCode
                    childDefs.software.code childDefs.software.description
                    softwarePrice item.partNo,
                  createVduraCareChildRow header item opportunityId baseProductCode
                    childDefs.support.code childDefs.support.description
                    supportPrice item.partNo])
          | none =>
              transformGo header opportunityId baseProductCode rest
                (rows ++ [createRow header item opportunityId baseProductCode none])
      | none =>
          transformGo header opportunityId baseProductCode rest
            (rows ++ [createRow header item opportunityId baseProductCode none])

/-- `transformData` (dataTransformer.js lines 23-75).  The source gives
`baseProductCode` the default value `BASE_PRODUCT_CODE`; here it is an
explicit argument. -/
def transformData (header : QuoteHeader) (lineItems : List LineItem)
    (opportunityId : String) (baseProductCode : String) : List OutputRow :=
  transformGo header opportunityId baseProductCode lineItems []

/- csvGenerator.js. -/

/-- `String(value)` for the values stored in rows. -/
def jvalString : JVal → String
  | .vstr s => s
  | .vint n => if n < 0 then ⟨'-' :: natToChars n.natAbs⟩ else ⟨natToChars n.toNat⟩
  | .vnull => "null"

/-- `/"/g`. -/
def quotePat : List Seg := [(none, [.lit false ['"']])]

/-- `escapeCSVValue` (csvGenerator.js lines 8-21).  `null`/`undefined`
returns `''` before `String` is applied. -/
def escapeCSVValue (value : JVal) : String :=
  match value with
  | .vnull => ""
  | v =>
      let stringValue := jvalString v
      if stringValue.data.contains ',' || stringValue.data.contains '"' ||
          stringValue.data.contains '\n' then
        ⟨'"' :: runRepl quotePat (litTmpl "\"\"") stringValue.data ++ ['"']⟩
      else stringValue

/-- The 20 values of `rowToCSVLine` (csvGenerator.js lines 29-50), in
column order. -/
def rowValues (row : OutputRow) : List JVal :=
  [row.quoteDate, row.opportunityId, row.customerName, row.partnerName,
   row.preparedBy, row.email, row.quoteNumber, row.baseProductCode,
   row.baseDescription, row.productCode, row.parentProductCode,
   row.listPrice, row.discountPercentage, row.discountPrice, row.optionQty,
   row.month, row.extendedPrice, row.optionDescription, row.quoteExpires,
   row.status]

/-- `rowToCSVLine` (csvGenerator.js lines 28-53). -/
def rowToCSVLine (row : OutputRow) : String :=
  String.intercalate "," ((rowValues row).map escapeCSVValue)

/-- `generateCSV` (csvGenerator.js lines 60-65). -/
def generateCSV (rows : List OutputRow) : String :=
  String.intercalate "\n" (String.intercalate "," CSV_HEADERS :: rows.map rowToCSVLine)

example : litPref true "abc".data "ABCd".data = true := by decide
example : mrunSegs [(some 1, [.rep jsDigit 1 none false])] "12a".data [] =
    some ([(1, ['1', '2'])], ['a']) := by decide
example : parseDate "January 30, 2026" = "01/30/2026" := by decide
example : parseCurrency "$15,180" = 15180 := by decide
example : normalizePdfText "a  b   c" = "a b c" := by decide

/-! ## Shared lemmas -/

/-- The transformer loop is the flat-map of its per-item row emission. -/
theorem transformGo_eq (header : QuoteHeader) (oid bpc : String)
    (items : List LineItem) (rows : List OutputRow) :
    transformGo header oid bpc items rows = rows ++ items.flatMap (fun item =>
      match findFirst VDURACARE_PATTERN item.partNo.data with
      | some (caps, _, _) =>
          match VDURACARE_CHILDREN ⟨capGet caps 1⟩ with
          | some cd =>
              [createRow header item oid bpc none,
               createVduraCareChildRow header item oid bpc cd.software.code
                 cd.software.description (item.discountPrice - cd.support.fixedPrice)
                 item.partNo,
               createVduraCareChildRow header item oid bpc cd.support.code
                 cd.support.description cd.support.fixedPrice item.partNo]
          | none => [createRow header item oid bpc none]
      | none => [createRow header item oid bpc none]) := by
  induction items generalizing rows with
  | nil => simp [transformGo]
  | cons item rest ih =>
      unfold transformGo
      cases h1 : findFirst VDURACARE_PATTERN item.partNo.data with
      | none => simp [h1, ih]
      | some r =>
          obtain ⟨caps, pos, rem⟩ := r
          cases h2 : VDURACARE_CHILDREN ⟨capGet caps 1⟩ with
          | none => simp [h1, h2, ih]
          | some cd => simp [h1, h2, ih]

/-! ## The claims -/

/-- Claim C3: the computed discount percentage equals 0 when `listPrice = 0`
and `(listPrice - discountPrice) / listPrice * 100` otherwise, and for all
`listPrice ≥ discountPrice > 0` the result lies in `[0, 100]`. -/
theorem discountPercentage_formula_and_bounds :
    ∀ listPrice discountPrice : ℚ,
      calculateDiscountPercentage listPrice discountPrice =
        (if listPrice = 0 then 0 else (listPrice - discountPrice) / listPrice * 100) ∧
      (0 < discountPrice → discountPrice ≤ listPrice →
        0 ≤ calculateDiscountPercentage listPrice discountPrice ∧
        calculateDiscountPercentage listPrice discountPrice ≤ 100) := by
  intro l d
  refine ⟨rfl, fun hd hdl => ?_⟩
  have hl : 0 < l := lt_of_lt_of_le hd hdl
  unfold calculateDiscountPercentage
  rw [if_neg (ne_of_gt hl)]
  constructor
  · exact mul_nonneg (div_nonneg (by linarith) hl.le) (by norm_num)
  · have h1 : (l - d) / l ≤ 1 := by
      rw [div_le_one hl]; linarith
    calc (l - d) / l * 100 ≤ 1 * 100 :=
          mul_le_mul_of_nonneg_right h1 (by norm_num)
      _ = 100 := by norm_num

/-- Witness for C3 at `listPrice = 200`, `discountPrice = 100`. -/
theorem discountPercentage_formula_and_bounds_witness :
    (0 : ℚ) < 100 ∧ (100 : ℚ) ≤ 200 ∧
    (0 ≤ calculateDiscountPercentage 200 100 ∧
     calculateDiscountPercentage 200 100 ≤ 100) :=
  ⟨by norm_num, by norm_num,
   (discountPercentage_formula_and_bounds 200 100).2 (by norm_num) (by norm_num)⟩

/-- Claim C1: `transformData` emits, per item in original order, exactly
three rows (parent, then software child, then support child) for an item
whose part number matches the VDURACare pattern with a catalogued tier,
and exactly one standard row for every other item — including a
care-pattern item with an uncatalogued tier, which degrades to the
single-row rule. -/
theorem transformData_row_structure :
    ∀ (header : QuoteHeader) (items : List LineItem) (oid bpc : String),
      transformData header items oid bpc = items.flatMap (fun item =>
        match findFirst VDURACARE_PATTERN item.partNo.data with
        | some (caps, _, _) =>
            match VDURACARE_CHILDREN ⟨capGet caps 1⟩ with
            | some cd =>
                [createRow header item oid bpc none,
                 createVduraCareChildRow header item oid bpc cd.software.code
                   cd.software.description
                   (item.discountPrice - cd.support.fixedPrice) item.partNo,
                 createVduraCareChildRow header item oid bpc cd.support.code
                   cd.support.description cd.support.fixedPrice item.partNo]
            | none => [createRow header item oid bpc none]
        | none => [createRow header item oid bpc none]) ∧
      (transformData header items oid bpc).length = (items.map (fun item =>
        match findFirst VDURACARE_PATTERN item.partNo.data with
        | some (caps, _, _) =>
            if (VDURACARE_CHILDREN ⟨capGet caps 1⟩).isSome then 3 else 1
        | none => 1)).sum := by
  intro header items oid bpc
  have h := transformGo_eq header oid bpc items []
  refine ⟨by simpa [transformData] using h, ?_⟩
  rw [transformData, h]
  simp only [List.nil_append, List.length_flatMap, List.map_map]
  apply congrArg List.sum
  apply List.map_congr_left
  intro item _
  cases h1 : findFirst VDURACARE_PATTERN item.partNo.data with
  | none => simp [h1]
  | some r =>
      obtain ⟨caps, pos, rem⟩ := r
      cases h2 : VDURACARE_CHILDREN ⟨capGet caps 1⟩ <;> simp [h1, h2]

def c2Header : QuoteHeader := ⟨"", "", "", "", "", "", ""⟩

/-- A care line item whose parent carries the month count `0`. -/
def c2Item : LineItem := ⟨"VDP-VDURACare-10-HP", "D", 2, some 0, 10, 10, 0⟩

/-- Claim C2 counterexample: `c2Item` is a care item with a recognized tier
and a month count (`months = 0`), so the claim asserts its child rows carry
`month = 0`; the code evaluates `parentItem.months || 1` and emits
`month = 1` for both children (the parent row also degrades to `''`). -/
theorem c2_child_month_counterexample :
    c2Item.months = some 0 ∧
    (transformData c2Header [c2Item] "OPP" "v5000").map OutputRow.month =
      [JVal.vstr "", JVal.vint 1, JVal.vint 1] :=
  ⟨rfl, by decide⟩

/-- Claim C2 (amended): for every care item with a catalogued tier, the
support child's price is the tier's fixed catalog constant and the software
child's price is `parent.discountPrice - fixedPrice` (no clamping); both
children have `listPrice = discountPrice`, `discountPercentage`
formatted `0`, `qty = parent.qty`, `month` equal to the parent's months
when that count is present and non-zero and `1` otherwise, and
`extendedPrice = childPrice * qty * month`. -/
theorem c2_child_rows_amended :
    ∀ (header : QuoteHeader) (oid bpc : String) (pre post : List LineItem)
      (item : LineItem) (caps : Caps) (pos rem : List Char) (cd : TierChildDefs),
      findFirst VDURACARE_PATTERN item.partNo.data = some (caps, pos, rem) →
      VDURACARE_CHILDREN ⟨capGet caps 1⟩ = some cd →
      let m1 : ℤ := match item.months with
        | some m => if m = 0 then 1 else m
        | none => 1
      let sw := createVduraCareChildRow header item oid bpc cd.software.code
        cd.software.description (item.discountPrice - cd.support.fixedPrice)
        item.partNo
      let sup := createVduraCareChildRow header item oid bpc cd.support.code
        cd.support.description cd.support.fixedPrice item.partNo
      transformData header (pre ++ item :: post) oid bpc =
        transformData header pre oid bpc ++
          createRow header item oid bpc none :: sw :: sup ::
            transformData header post oid bpc ∧
      sup.discountPrice = .vstr (formatPrice cd.support.fixedPrice) ∧
      sw.discountPrice =
        .vstr (formatPrice (item.discountPrice - cd.support.fixedPrice)) ∧
      sw.listPrice = sw.discountPrice ∧
      sup.listPrice = sup.discountPrice ∧
      sw.discountPercentage = .vstr (formatPrice 0) ∧
      sup.discountPercentage = .vstr (formatPrice 0) ∧
      sw.optionQty = .vint item.qty ∧
      sup.optionQty = .vint item.qty ∧
      sw.month = .vint m1 ∧
      sup.month = .vint m1 ∧
      sw.extendedPrice = .vstr (formatPrice
        ((item.discountPrice - cd.support.fixedPrice) * (item.qty : ℚ) * (m1 : ℚ))) ∧
      sup.extendedPrice = .vstr (formatPrice
        (cd.support.fixedPrice * (item.qty : ℚ) * (m1 : ℚ))) := by
  intro header oid bpc pre post item caps pos rem cd h1 h2
  refine ⟨?_, rfl, rfl, rfl, rfl, rfl, rfl, rfl, rfl, rfl, rfl, rfl, rfl⟩
  simp [transformData, transformGo_eq, h1, h2]

/-- The HP tier's catalog entry. -/
def hpChildDefs : TierChildDefs :=
  (VDURACARE_CHILDREN "HP").getD ⟨⟨"", ""⟩, ⟨"", 0, ""⟩⟩

/-- The care item of the spec's worked scenario. -/
def c2ItemW : LineItem :=
  ⟨"VDP-VDURACare-10-HP", "Desc", 21, some 60, 500, 90, 113400⟩

/-- Witness for the amended C2 at the spec's scenario item (`qty = 21`,
`months = 60`, `discountPrice = 90`, tier HP). -/
theorem c2_child_rows_amended_witness :
    transformData c2Header [c2ItemW] "OPP" "v5000" =
      transformData c2Header [] "OPP" "v5000" ++
        createRow c2Header c2ItemW "OPP" "v5000" none ::
          createVduraCareChildRow c2Header c2ItemW "OPP" "v5000"
            hpChildDefs.software.code hpChildDefs.software.description
            (c2ItemW.discountPrice - hpChildDefs.support.fixedPrice)
            c2ItemW.partNo ::
          createVduraCareChildRow c2Header c2ItemW "OPP" "v5000"
            hpChildDefs.support.code hpChildDefs.support.description
            hpChildDefs.support.fixedPrice c2ItemW.partNo ::
            transformData c2Header [] "OPP" "v5000" ∧
    (createVduraCareChildRow c2Header c2ItemW "OPP" "v5000"
      hpChildDefs.software.code hpChildDefs.software.description
      (c2ItemW.discountPrice - hpChildDefs.support.fixedPrice)
      c2ItemW.partNo).month = .vint 60 := by
  have h := c2_child_rows_amended c2Header "OPP" "v5000" [] [] c2ItemW
    [(1, ['H', 'P'])] "VDP-VDURACare-10-HP".data [] hpChildDefs rfl rfl
  exact ⟨h.1, h.2.2.2.2.2.2.2.2.2.1⟩

/-- The `/"/g` pattern matches exactly at a double-quote character and
consumes it. -/
theorem mrunSegs_quotePat (c : Char) (rest : List Char) :
    mrunSegs quotePat (c :: rest) [] =
      if c = '"' then some ([], rest) else none := by
  rcases eq_or_ne c '"' with hc | hc
  · subst hc; rfl
  · have hlp : litPref false ['"'] (c :: rest) = false := by
      simp [litPref, litEq]
      exact fun h => hc h.symm
    simp [quotePat, mrunSegs, mrunAtoms, hlp, hc]

/-- `stringValue.replace(/"/g, '""')` doubles every double-quote. -/
theorem scanRepl_quote (fuel : ℕ) : ∀ s : List Char, s.length < fuel →
    scanRepl quotePat (litTmpl "\"\"") fuel s =
      s.flatMap fun c => if c = '"' then ['"', '"'] else [c] := by
  induction fuel with
  | zero => intro s h; omega
  | succ fuel ih =>
      intro s h
      match s with
      | [] => rfl
      | c :: rest =>
          have hr : rest.length < fuel := by
            simp only [List.length_cons] at h
            omega
          rw [scanRepl, mrunSegs_quotePat]
          by_cases hc : c = '"'
          · rw [if_pos hc]
            dsimp only
            have hlen : ¬rest.length = (c :: rest).length := by simp
            rw [if_neg hlen, ih rest hr]
            simp only [List.flatMap_cons, if_pos hc]
            rfl
          · rw [if_neg hc]
            dsimp only
            rw [ih rest hr]
            simp only [List.flatMap_cons, if_neg hc]
            rfl

/-- CSV escaping as the spec words it: wrap in double quotes and double
every internal double-quote (spec-side definition for claim C7). -/
def csvEscapeSpec (s : String) : String :=
  ⟨'"' :: (s.data.flatMap fun c => if c = '"' then ['"', '"'] else [c]) ++ ['"']⟩

/-- Claim C7: `generateCSV` emits the fixed 20-column header line first,
then one line per row joined by newlines; every field value containing a
comma, double-quote or newline is wrapped in double quotes with internal
double-quotes doubled, every other value is emitted verbatim, and
null/undefined becomes the empty string. -/
theorem generateCSV_spec :
    (∀ rows : List OutputRow, generateCSV rows =
      String.intercalate "\n" (String.intercalate "," CSV_HEADERS :: rows.map
        fun row => String.intercalate "," ((rowValues row).map escapeCSVValue))) ∧
    CSV_HEADERS.length = 20 ∧
    String.intercalate "," CSV_HEADERS =
      "Quote Date,Opportunity ID,Customer Name,Partner Name,Prepared By,Email,Quote Number,Base Product Code,Base Description,Product Code,Parent Product Code,List Price,Discount Percentage,Discount Price,Option QTY,Month,Extended Price,Option Description,Quote Expires,Status" ∧
    (∀ row : OutputRow, (rowValues row).length = 20) ∧
    escapeCSVValue .vnull = "" ∧
    (∀ s : String, escapeCSVValue (.vstr s) =
      if s.data.contains ',' || s.data.contains '"' || s.data.contains '\n'
      then csvEscapeSpec s else s) ∧
    (∀ n : ℤ, escapeCSVValue (.vint n) =
      if (jvalString (.vint n)).data.contains ',' ||
          (jvalString (.vint n)).data.contains '"' ||
          (jvalString (.vint n)).data.contains '\n'
      then csvEscapeSpec (jvalString (.vint n)) else jvalString (.vint n)) := by
  have hesc : ∀ s : String,
      (⟨'"' :: runRepl quotePat (litTmpl "\"\"") s.data ++ ['"']⟩ : String) =
        csvEscapeSpec s := by
    intro s
    rw [csvEscapeSpec, runRepl, scanRepl_quote (s.data.length + 1) s.data (by omega)]
  refine ⟨fun rows => rfl, rfl, by decide, fun row => rfl, rfl, ?_, ?_⟩
  · intro s
    by_cases hsp : (s.data.contains ',' || s.data.contains '"' ||
        s.data.contains '\n') = true
    · rw [if_pos hsp, ← hesc s]
      simp only [escapeCSVValue, jvalString, hsp, if_pos]
    · rw [if_neg hsp]
      simp only [escapeCSVValue, jvalString]
      rw [if_neg hsp]
  · intro n
    by_cases hsp : ((jvalString (.vint n)).data.contains ',' ||
        (jvalString (.vint n)).data.contains '"' ||
        (jvalString (.vint n)).data.contains '\n') = true
    · rw [if_pos hsp, ← hesc (jvalString (.vint n))]
      simp only [escapeCSVValue]
      rw [if_pos hsp]
    · rw [if_neg hsp]
      simp only [escapeCSVValue]
      rw [if_neg hsp]

/-! ## Engine soundness lemmas -/

/-- Inversion for the greedy helper: a success consumed some `i` with
`lo ≤ i ≤ j`. -/
theorem tryD_inv {α : Type} (k : List Char → Option α) (s : List Char) (lo : ℕ) :
    ∀ (j : ℕ) (r : α), tryD k s lo j = some r →
      ∃ i, lo ≤ i ∧ i ≤ j ∧ k (s.drop i) = some r := by
  intro j
  induction j with
  | zero =>
      intro r h
      rw [tryD] at h
      by_cases hlo : lo = 0
      · exact ⟨0, by omega, le_refl 0, by simpa [hlo] using h⟩
      · simp [hlo] at h
  | succ j ih =>
      intro r h
      rw [tryD] at h
      by_cases hlt : j + 1 < lo
      · simp [hlt] at h
      · rw [if_neg hlt] at h
        cases hk : k (s.drop (j + 1)) with
        | some v =>
            rw [hk] at h
            simp only [Option.orElse] at h
            exact ⟨j + 1, by omega, le_refl _, by rw [hk, h]⟩
        | none =>
            rw [hk] at h
            simp only [Option.orElse] at h
            obtain ⟨i, h1, h2, h3⟩ := ih r h
            exact ⟨i, h1, by omega, h3⟩

/-- Inversion for the lazy helper: a success consumed some `i` with
`j ≤ i < j + b`. -/
theorem tryU_inv {α : Type} (k : List Char → Option α) (s : List Char) :
    ∀ (b j : ℕ) (r : α), tryU k s j b = some r →
      ∃ i, j ≤ i ∧ i < j + b ∧ k (s.drop i) = some r := by
  intro b
  induction b with
  | zero => intro j r h; rw [tryU] at h; exact absurd h (by simp)
  | succ b ih =>
      intro j r h
      rw [tryU] at h
      cases hk : k (s.drop j) with
      | some v =>
          rw [hk] at h
          simp only [Option.orElse] at h
          exact ⟨j, le_refl _, by omega, by rw [hk, h]⟩
      | none =>
          rw [hk] at h
          simp only [Option.orElse] at h
          obtain ⟨i, h1, h2, h3⟩ := ih (j + 1) r h
          exact ⟨i, by omega, by omega, h3⟩

/-- A prefix of length at most the `takeWhile` run satisfies the class. -/
theorem take_all_sat (f : Char → Bool) :
    ∀ (s : List Char) (i : ℕ), i ≤ (s.takeWhile f).length →
      ∀ c ∈ s.take i, f c = true := by
  intro s
  induction s with
  | nil => intro i _ c hc; simp at hc
  | cons a t ih =>
      intro i hi c hc
      by_cases hf : f a = true
      · cases i with
        | zero => simp at hc
        | succ i =>
            simp only [List.take_succ_cons, List.mem_cons] at hc
            rcases hc with rfl | hc
            · exact hf
            · refine ih i ?_ c hc
              simp only [List.takeWhile_cons, hf, if_true, List.length_cons] at hi
              omega
      · simp only [List.takeWhile_cons, hf] at hi
        simp only [Bool.false_eq_true, if_false, List.length_nil,
          Nat.le_zero] at hi
        subst hi
        simp at hc

/-- A literal can only match a string at least as long as itself. -/
theorem litPref_length (ci : Bool) :
    ∀ (cs s : List Char), litPref ci cs s = true → cs.length ≤ s.length := by
  intro cs
  induction cs with
  | nil => intro s _; simp
  | cons a as ih =>
      intro s h
      cases s with
      | nil => simp [litPref] at h
      | cons b bs =>
          simp only [litPref, Bool.and_eq_true] at h
          simpa using Nat.succ_le_succ (ih bs h.2)

/-- Every character consumed by a literal is `litEq` to one of its
characters. -/
theorem litPref_sound (ci : Bool) :
    ∀ (cs s : List Char), litPref ci cs s = true →
      ∀ c ∈ s.take cs.length, ∃ a ∈ cs, litEq ci a c = true := by
  intro cs
  induction cs with
  | nil => intro s _ c hc; simp at hc
  | cons a as ih =>
      intro s h c hc
      cases s with
      | nil => simp [litPref] at h
      | cons b bs =>
          simp only [litPref, Bool.and_eq_true] at h
          simp only [List.length_cons, List.take_succ_cons, List.mem_cons] at hc
          rcases hc with rfl | hc
          · exact ⟨a, List.mem_cons_self a as, h.1⟩
          · obtain ⟨a2, ha2, he2⟩ := ih bs h.2 c hc
            exact ⟨a2, List.mem_cons_of_mem a ha2, he2⟩

/-- The `takeWhile` run is no longer than the list. -/
theorem takeWhile_length_le (f : Char → Bool) :
    ∀ s : List Char, (s.takeWhile f).length ≤ s.length := by
  intro s
  induction s with
  | nil => simp
  | cons a t ih =>
      by_cases hf : f a = true <;>
        simp only [List.takeWhile_cons, hf, Bool.false_eq_true, if_true, if_false,
          List.length_cons, List.length_nil] <;> omega

/-- `AtomOK P t`: every character `t` can consume satisfies `P`. -/
def AtomOK (P : Char → Prop) : Atom → Prop
  | .lit ci cs => ∀ a b, a ∈ cs → litEq ci a b = true → P b
  | .cls f => ∀ c, f c = true → P c
  | .rep f _ _ _ => ∀ c, f c = true → P c
  | .look _ => True

/-- If the last atom is a lookahead, its predicate holds at the position
where matching finished. -/
def TrailOK (atoms : List Atom) (s : List Char) : Prop :=
  ∀ p, atoms.getLast? = some (Atom.look p) → p s = true

/-- Soundness of the atom matcher: a successful run consumes a prefix of
`n` characters all satisfying `P`, hands the rest to the continuation, and
satisfies a trailing lookahead at the final position. -/
theorem mrunAtoms_sound {α : Type} (P : Char → Prop) :
    ∀ (atoms : List Atom), (∀ t ∈ atoms, AtomOK P t) →
      ∀ (s : List Char) (k : List Char → Option α) (r : α),
        mrunAtoms atoms s k = some r →
        ∃ n, n ≤ s.length ∧ (∀ c ∈ s.take n, P c) ∧
          TrailOK atoms (s.drop n) ∧ k (s.drop n) = some r ∧
          (atoms = [] → n = 0) := by
  intro atoms
  induction atoms with
  | nil =>
      intro _ s k r h
      rw [mrunAtoms] at h
      exact ⟨0, Nat.zero_le _, by simp, fun p hp => by simp at hp, by simpa using h,
        fun _ => rfl⟩
  | cons t rest ih =>
      intro hOK s k r h
      have hOKt : AtomOK P t := hOK t (List.mem_cons_self t rest)
      have hOKr : ∀ u ∈ rest, AtomOK P u := fun u hu => hOK u (List.mem_cons_of_mem t hu)
      have trail_cons : ∀ (s2 : List Char), TrailOK rest s2 →
          (∀ p, t = Atom.look p → rest = [] → p s2 = true) → TrailOK (t :: rest) s2 := by
        intro s2 htr hlk p hp
        cases rest with
        | nil =>
            simp only [List.getLast?_singleton, Option.some.injEq] at hp
            exact hlk p hp rfl
        | cons r2 rs => exact htr p (by rwa [List.getLast?_cons_cons] at hp)
      cases t with
      | lit ci cs =>
          rw [mrunAtoms] at h
          by_cases hlp : litPref ci cs s = true
          · rw [if_pos hlp] at h
            obtain ⟨n, hn, hP, htr, hk, _⟩ := ih hOKr (s.drop cs.length) k r h
            have hcs : cs.length ≤ s.length := litPref_length ci cs s hlp
            refine ⟨cs.length + n, ?_, ?_, ?_, ?_, by simp⟩
            · have := List.length_drop cs.length s
              omega
            · intro c hc
              rw [List.take_add] at hc
              rcases List.mem_append.mp hc with hc | hc
              · obtain ⟨a, ha, he⟩ := litPref_sound ci cs s hlp c hc
                exact hOKt a c ha he
              · exact hP c hc
            · rw [show s.drop (cs.length + n) = (s.drop cs.length).drop n by
                rw [List.drop_drop]]
              exact trail_cons _ htr (fun p hp => by simp at hp)
            · rw [show s.drop (cs.length + n) = (s.drop cs.length).drop n by
                rw [List.drop_drop]]
              exact hk
          · rw [if_neg hlp] at h
            exact absurd h (by simp)
      | cls f =>
          cases s with
          | nil => rw [mrunAtoms] at h; exact absurd h (by simp)
          | cons a s2 =>
              rw [mrunAtoms] at h
              by_cases hf : f a = true
              · rw [if_pos hf] at h
                obtain ⟨n, hn, hP, htr, hk, _⟩ := ih hOKr s2 k r h
                refine ⟨n + 1, by simpa using Nat.succ_le_succ hn, ?_, ?_, ?_, by simp⟩
                · intro c hc
                  simp only [List.take_succ_cons, List.mem_cons] at hc
                  rcases hc with rfl | hc
                  · exact hOKt c hf
                  · exact hP c hc
                · rw [List.drop_succ_cons]
                  exact trail_cons _ htr (fun p hp => by simp at hp)
                · rw [List.drop_succ_cons]; exact hk
              · rw [if_neg hf] at h
                exact absurd h (by simp)
      | look p0 =>
          rw [mrunAtoms] at h
          by_cases hp0 : p0 s = true
          · rw [if_pos hp0] at h
            obtain ⟨n, hn, hP, htr, hk, hnil⟩ := ih hOKr s k r h
            refine ⟨n, hn, hP, ?_, hk, by simp⟩
            refine trail_cons _ htr ?_
            intro p hp hrest
            cases hp
            rw [hnil hrest, List.drop_zero]
            exact hp0
          · rw [if_neg hp0] at h
            exact absurd h (by simp)
      | rep f lo hi lz =>
          rw [mrunAtoms.eq_def] at h
          dsimp only at h
          have hcore : ∃ i, i ≤ (s.takeWhile f).length ∧
              mrunAtoms rest (s.drop i) k = some r := by
            cases hi with
            | none =>
                cases lz with
                | false =>
                    simp only [Bool.false_eq_true, if_false] at h
                    obtain ⟨i, h1, h2, h3⟩ := tryD_inv _ s lo _ r h
                    exact ⟨i, h2, h3⟩
                | true =>
                    simp only [if_true] at h
                    obtain ⟨i, h1, h2, h3⟩ := tryU_inv _ s _ lo r h
                    exact ⟨i, by omega, h3⟩
            | some hb =>
                cases lz with
                | false =>
                    simp only [Bool.false_eq_true, if_false] at h
                    obtain ⟨i, h1, h2, h3⟩ := tryD_inv _ s lo _ r h
                    refine ⟨i, ?_, h3⟩
                    have hmin : min hb (s.takeWhile f).length ≤ (s.takeWhile f).length :=
                      min_le_right _ _
                    omega
                | true =>
                    simp only [if_true] at h
                    obtain ⟨i, h1, h2, h3⟩ := tryU_inv _ s _ lo r h
                    refine ⟨i, ?_, h3⟩
                    have hmin : min hb (s.takeWhile f).length ≤ (s.takeWhile f).length :=
                      min_le_right _ _
                    omega
          obtain ⟨i, hi1, h3⟩ := hcore
          obtain ⟨n, hn, hP, htr, hk, _⟩ := ih hOKr (s.drop i) k r h3
          have hilen : i ≤ s.length :=
            le_trans hi1 (takeWhile_length_le f s)
          refine ⟨i + n, ?_, ?_, ?_, ?_, by simp⟩
          · have := List.length_drop i s
            omega
          · intro c hc
            rw [List.take_add] at hc
            rcases List.mem_append.mp hc with hc | hc
            · exact hOKt c (take_all_sat f s i hi1 c hc)
            · exact hP c hc
          · rw [show s.drop (i + n) = (s.drop i).drop n by rw [List.drop_drop]]
            exact trail_cons _ htr (fun p hp => by simp at hp)
          · rw [show s.drop (i + n) = (s.drop i).drop n by rw [List.drop_drop]]
            exact hk

/-- Every atom is compatible with the trivial predicate. -/
theorem AtomOK_true : ∀ t : Atom, AtomOK (fun _ => True) t := by
  intro t
  cases t with
  | lit ci cs => exact fun _ _ _ _ => trivial
  | cls f => exact fun _ _ => trivial
  | rep f lo hi lz => exact fun _ _ => trivial
  | look p => trivial

/-- Capture soundness: every capture produced by a successful pattern run
either was already present or consists of characters allowed by the atoms
of its capturing segment. -/
theorem mrunSegs_caps_sound (P : ℕ → Char → Prop) :
    ∀ (segs : List Seg) (s : List Char) (caps caps2 : Caps) (rest : List Char),
      (∀ i atoms, (some i, atoms) ∈ segs → ∀ t ∈ atoms, AtomOK (P i) t) →
      mrunSegs segs s caps = some (caps2, rest) →
      ∀ i cap, (i, cap) ∈ caps2 → (i, cap) ∈ caps ∨ ∀ c ∈ cap, P i c := by
  intro segs
  induction segs with
  | nil =>
      intro s caps caps2 rest _ h i cap hm
      simp only [mrunSegs, Option.some.injEq, Prod.mk.injEq] at h
      exact Or.inl (h.1 ▸ hm)
  | cons seg rest' ih =>
      intro s caps caps2 rest hOK h i cap hm
      obtain ⟨g, atoms⟩ := seg
      rw [mrunSegs] at h
      have hOK' : ∀ i2 atoms2, (some i2, atoms2) ∈ rest' →
          ∀ t ∈ atoms2, AtomOK (P i2) t :=
        fun i2 a2 hm2 => hOK i2 a2 (List.mem_cons_of_mem _ hm2)
      cases g with
      | some j =>
          have hA : ∀ t ∈ atoms, AtomOK (P j) t :=
            hOK j atoms (List.mem_cons_self _ _)
          obtain ⟨n, hn, hP, _, hk, _⟩ := mrunAtoms_sound (P j) atoms hA s _ _ h
          dsimp only at hk
          have hcap : s.length - (s.drop n).length = n := by
            rw [List.length_drop]; omega
          rw [hcap] at hk
          rcases ih (s.drop n) _ caps2 rest hOK' hk i cap hm with hin | hP2
          · rcases List.mem_cons.mp hin with heq | hin2
            · right
              rw [Prod.mk.injEq] at heq
              obtain ⟨rfl, rfl⟩ := heq
              exact hP
            · exact Or.inl hin2
          · exact Or.inr hP2
      | none =>
          have hA : ∀ t ∈ atoms, AtomOK (fun _ => True) t := fun t _ => AtomOK_true t
          obtain ⟨n, hn, hP, _, hk, _⟩ := mrunAtoms_sound _ atoms hA s _ _ h
          dsimp only at hk
          exact ih (s.drop n) caps caps2 rest hOK' hk i cap hm

/-- The in-date digit-repair pattern needs a whitespace character; on
whitespace-free text it never matches. -/
theorem mrunSegs_cleanDigits_none (s : List Char)
    (hws : ∀ c ∈ s, jsWs c = false) :
    mrunSegs cleanDigitsPat s [] = none := by
  cases s with
  | nil => rfl
  | cons c rest =>
      have hrun : (rest.takeWhile jsWs).length = 0 := by
        cases rest with
        | nil => rfl
        | cons d r2 =>
            have hd : jsWs d = false :=
              hws d (List.mem_cons_of_mem c (List.mem_cons_self d r2))
            simp [List.takeWhile_cons, hd]
      by_cases hc : jsDigit c = true
      · simp [cleanDigitsPat, mrunSegs, mrunAtoms, hc, hrun, tryD]
      · simp [cleanDigitsPat, mrunSegs, mrunAtoms, hc]

/-- On whitespace-free text the `parseDate` cleaning replacement is the
identity. -/
theorem scanRepl_cleanDigits_id :
    ∀ (fuel : ℕ) (s : List Char), (∀ c ∈ s, jsWs c = false) →
      scanRepl cleanDigitsPat joinTmpl fuel s = s := by
  intro fuel
  induction fuel with
  | zero => intro s _; rfl
  | succ fuel ih =>
      intro s hws
      cases s with
      | nil => rfl
      | cons c rest =>
          rw [scanRepl, mrunSegs_cleanDigits_none (c :: rest) hws]
          dsimp only
          rw [ih rest fun d hd => hws d (List.mem_cons_of_mem c hd)]

/-- A digit is not a whitespace character. -/
theorem jsDigit_not_ws (c : Char) (h : jsDigit c = true) : jsWs c = false := by
  simp only [jsDigit, Bool.and_eq_true, decide_eq_true_eq] at h
  simp only [jsWs, Bool.or_eq_false_iff, Bool.and_eq_false_iff]
  norm_num
  omega

/-- A string accepted by the `MM/DD/YYYY` test consists of digits and
slashes only (and in particular contains no whitespace). -/
theorem isMMDDYYYY_chars (s : List Char) (h : isMMDDYYYY s = true) :
    ∀ c ∈ s, jsDigit c = true ∨ c = '/' := by
  rw [isMMDDYYYY, Option.isSome_iff_exists] at h
  obtain ⟨⟨caps, rest⟩, hx⟩ := h
  rw [mmddyyyyPat, mrunSegs] at hx
  have hA : ∀ t ∈ [Atom.rep jsDigit 1 (some 2) false, Atom.lit false ['/'],
      Atom.rep jsDigit 1 (some 2) false, Atom.lit false ['/'],
      Atom.rep jsDigit 4 (some 4) false, Atom.look atEnd],
      AtomOK (fun c => jsDigit c = true ∨ c = '/') t := by
    intro t ht
    fin_cases ht
    · exact fun c hc => Or.inl hc
    · intro a b ha he
      simp only [List.mem_singleton] at ha
      subst ha
      simp only [litEq, if_neg (by simp : ¬false = true), decide_eq_true_eq] at he
      exact Or.inr he.symm
    · exact fun c hc => Or.inl hc
    · intro a b ha he
      simp only [List.mem_singleton] at ha
      subst ha
      simp only [litEq, if_neg (by simp : ¬false = true), decide_eq_true_eq] at he
      exact Or.inr he.symm
    · exact fun c hc => Or.inl hc
    · trivial
  obtain ⟨n, hn, hP, htr, _, _⟩ := mrunAtoms_sound _ _ hA s _ _ hx
  have hend : atEnd (s.drop n) = true := htr atEnd rfl
  have hnlen : n = s.length := by
    simp only [atEnd, List.isEmpty_iff] at hend
    have := List.length_drop n s
    rw [hend] at this
    simp only [List.length_nil] at this
    omega
  intro c hc
  refine hP c ?_
  rw [hnlen, List.take_length]
  exact hc

/-- Claim C5: `parseDate` converts month-name dates whose month is in the
fixed table to `MM/DD/YYYY` (e.g. `January 30, 2026` to `01/30/2026`),
returns strings already in `MM/DD/YYYY` form unchanged, and returns any
text matching neither shape verbatim. -/
theorem parseDate_spec :
    parseDate "January 30, 2026" = "01/30/2026" ∧
    (∀ s : String, isMMDDYYYY s.data = true → parseDate s = s) ∧
    (∀ s : String,
      isMMDDYYYY (runRepl cleanDigitsPat joinTmpl s.data) = false →
      findFirst monthNamePat (runRepl cleanDigitsPat joinTmpl s.data) = none →
      parseDate s = s) ∧
    (∀ (s : String) (caps : Caps) (pos rem : List Char) (mm : String),
      isMMDDYYYY (runRepl cleanDigitsPat joinTmpl s.data) = false →
      findFirst monthNamePat (runRepl cleanDigitsPat joinTmpl s.data) =
        some (caps, pos, rem) →
      (monthTable.find? fun p =>
        p.1 == String.mk (lowerList (capGet caps 1))).map Prod.snd = some mm →
      parseDate s =
        ⟨mm.data ++ '/' :: padStart2 (capGet caps 2) ++ '/' :: capGet caps 3⟩) := by
  refine ⟨by decide, ?_, ?_, ?_⟩
  · intro s h
    have hne : s ≠ "" := by
      intro he
      subst he
      simp only [isMMDDYYYY] at h
      exact absurd h (by decide)
    have hclean : runRepl cleanDigitsPat joinTmpl s.data = s.data := by
      rw [runRepl]
      exact scanRepl_cleanDigits_id _ s.data fun c hc =>
        (isMMDDYYYY_chars s.data h c hc).elim (jsDigit_not_ws c)
          (fun he => by subst he; decide)
    rw [parseDate, if_neg hne, hclean, if_pos h]
  · intro s hm hf
    by_cases hne : s = ""
    · subst hne; rfl
    · rw [parseDate, if_neg hne, if_neg (by simp [hm]), hf]
  · intro s caps pos rem mm hm hf hmm
    have hne : s ≠ "" := by
      intro he
      subst he
      have hnone : findFirst monthNamePat
          (runRepl cleanDigitsPat joinTmpl "".data) = none := by decide
      rw [hnone] at hf
      simp at hf
    rw [parseDate, if_neg hne, if_neg (by simp [hm]), hf]
    dsimp only
    rw [hmm]
    rfl

/-- Witness for C5 at the already-formatted date `12/31/2026`. -/
theorem parseDate_spec_witness :
    isMMDDYYYY "12/31/2026".data = true ∧ parseDate "12/31/2026" = "12/31/2026" :=
  ⟨by decide, parseDate_spec.2.1 "12/31/2026" (by decide)⟩

/-- Claim C6: `extractHeader` is total, and each field independently
defaults to the empty string when its anchor pattern is absent from the
(normalized) text, while a present anchor yields that field's own
extraction. -/
theorem extractHeader_defaults :
    ∀ text : String,
      (findFirst quoteNumberPat (normalizePdfText text).data = none →
        (extractHeader text).quoteNumber = "") ∧
      (∀ caps pos rem,
        findFirst quoteNumberPat (normalizePdfText text).data = some (caps, pos, rem) →
        (extractHeader text).quoteNumber = ⟨capGet caps 1⟩) ∧
      (findFirst quoteDatePat (normalizePdfText text).data = none →
        (extractHeader text).quoteDate = "") ∧
      (∀ caps pos rem,
        findFirst quoteDatePat (normalizePdfText text).data = some (caps, pos, rem) →
        (extractHeader text).quoteDate = parseDate ⟨capGet caps 1⟩) ∧
      (findFirst quoteExpiresPat (normalizePdfText text).data = none →
        (extractHeader text).expires = "") ∧
      (∀ caps pos rem,
        findFirst quoteExpiresPat (normalizePdfText text).data = some (caps, pos, rem) →
        (extractHeader text).expires = parseDate ⟨capGet caps 1⟩) ∧
      (findFirst customerNamePat (normalizePdfText text).data = none →
        findFirst companyPat (normalizePdfText text).data = none →
        (extractHeader text).customer = "") ∧
      (∀ caps pos rem,
        findFirst customerNamePat (normalizePdfText text).data = some (caps, pos, rem) →
        (extractHeader text).customer = ⟨trimJS (capGet caps 1)⟩) ∧
      (∀ caps pos rem,
        findFirst customerNamePat (normalizePdfText text).data = none →
        findFirst companyPat (normalizePdfText text).data = some (caps, pos, rem) →
        (extractHeader text).customer = ⟨trimJS (capGet caps 1)⟩) ∧
      (findFirst partnerPat (normalizePdfText text).data = none →
        (extractHeader text).partner = "") ∧
      (∀ caps pos rem,
        findFirst partnerPat (normalizePdfText text).data = some (caps, pos, rem) →
        (extractHeader text).partner = ⟨trimJS (capGet caps 1)⟩) ∧
      (findFirst preparedByPat (normalizePdfText text).data = none →
        (extractHeader text).preparedBy = "") ∧
      (∀ caps pos rem,
        findFirst preparedByPat (normalizePdfText text).data = some (caps, pos, rem) →
        (extractHeader text).preparedBy = ⟨trimJS (capGet caps 1)⟩) ∧
      (findFirst emailPat (normalizePdfText text).data = none →
        (extractHeader text).email = "") ∧
      (∀ caps pos rem,
        findFirst emailPat (normalizePdfText text).data = some (caps, pos, rem) →
        (extractHeader text).email = ⟨capGet caps 1⟩) := by
  intro text
  refine ⟨fun h => by simp [extractHeader, h],
          fun caps pos rem h => by simp [extractHeader, h],
          fun h => by simp [extractHeader, h],
          fun caps pos rem h => by simp [extractHeader, h],
          fun h => by simp [extractHeader, h],
          fun caps pos rem h => by simp [extractHeader, h],
          fun h1 h2 => by simp [extractHeader, h1, h2],
          fun caps pos rem h => by simp [extractHeader, h],
          fun caps pos rem h1 h2 => by simp [extractHeader, h1, h2],
          fun h => by simp [extractHeader, h],
          fun caps pos rem h => by simp [extractHeader, h],
          fun h => by simp [extractHeader, h],
          fun caps pos rem h => by simp [extractHeader, h],
          fun h => by simp [extractHeader, h],
          fun caps pos rem h => by simp [extractHeader, h]⟩

/-- Witness for C6 at a text containing none of the anchors. -/
theorem extractHeader_defaults_witness :
    findFirst quoteNumberPat (normalizePdfText "hello").data = none ∧
    (extractHeader "hello").quoteNumber = "" ∧
    (extractHeader "hello").customer = "" ∧
    (extractHeader "hello").email = "" :=
  ⟨by decide,
   (extractHeader_defaults "hello").1 (by decide),
   (extractHeader_defaults "hello").2.2.2.2.2.2.1 (by decide) (by decide),
   (extractHeader_defaults "hello").2.2.2.2.2.2.2.2.2.2.2.2.2.1 (by decide)⟩

/-- Dropping the `takeWhile` run is `dropWhile`. -/
theorem drop_takeWhile_length (p : Char → Bool) :
    ∀ l : List Char, l.drop (l.takeWhile p).length = l.dropWhile p := by
  intro l
  induction l with
  | nil => rfl
  | cons a t ih =>
      by_cases hp : p a = true
      · simp [List.takeWhile_cons, List.dropWhile_cons, hp, ih]
      · simp [List.takeWhile_cons, List.dropWhile_cons, hp]

/-- The head of `dropWhile p` never satisfies `p`. -/
theorem head_dropWhile_false (p : Char → Bool) :
    ∀ (l : List Char) (d : Char), (l.dropWhile p).head? = some d → p d = false := by
  intro l
  induction l with
  | nil => intro d hd; simp at hd
  | cons a t ih =>
      intro d hd
      by_cases hp : p a = true
      · rw [List.dropWhile_cons, if_pos hp] at hd
        exact ih d hd
      · rw [List.dropWhile_cons, if_neg hp] at hd
        simp only [List.head?_cons, Option.some.injEq] at hd
        subst hd
        simpa using hp

/-- `/\s+/` matches at a whitespace head, consuming the maximal run. -/
theorem mrunSegs_wsPat_pos (c : Char) (rest : List Char) (h : jsWs c = true) :
    mrunSegs wsPat (c :: rest) [] =
      some ([], rest.drop (rest.takeWhile jsWs).length) := by
  have hrun : ((c :: rest).takeWhile jsWs).length =
      (rest.takeWhile jsWs).length + 1 := by
    simp [List.takeWhile_cons, h]
  simp only [wsPat, mrunSegs, mrunAtoms, hrun, Bool.false_eq_true, if_false]
  rw [tryD]
  simp [Option.orElse, mrunSegs, List.drop_succ_cons]

/-- `/\s+/` fails at a non-whitespace head. -/
theorem mrunSegs_wsPat_neg (c : Char) (rest : List Char) (h : jsWs c = false) :
    mrunSegs wsPat (c :: rest) [] = none := by
  simp [wsPat, mrunSegs, mrunAtoms, List.takeWhile_cons, h, tryD]

/-- The whitespace-collapse pass leaves a non-whitespace head in place. -/
theorem scanRepl_ws_head :
    ∀ (fuel : ℕ) (s : List Char), (∀ d, s.head? = some d → jsWs d = false) →
      (scanRepl wsPat spaceTmpl fuel s).head? = s.head? := by
  intro fuel s hh
  cases fuel with
  | zero => rfl
  | succ fuel =>
      cases s with
      | nil => rfl
      | cons c rest =>
          have hc : jsWs c = false := hh c rfl
          rw [scanRepl, mrunSegs_wsPat_neg c rest hc]
          rfl

/-- After the final `/\s+/g → ' '` pass, every whitespace character is a
single space and no two adjacent characters are both whitespace. -/
theorem scanRepl_ws_collapsed :
    ∀ (fuel : ℕ) (s : List Char), s.length < fuel →
      (∀ c ∈ scanRepl wsPat spaceTmpl fuel s, jsWs c = true → c = ' ') ∧
      (scanRepl wsPat spaceTmpl fuel s).Chain'
        (fun a b => ¬(jsWs a = true ∧ jsWs b = true)) := by
  intro fuel
  induction fuel with
  | zero => intro s h; omega
  | succ fuel ih =>
      intro s hlen
      cases s with
      | nil =>
          constructor
          · intro c hc; rw [scanRepl] at hc; simp [mrunSegs, mrunAtoms, wsPat, tryD] at hc
          · rw [scanRepl]; simp [mrunSegs, mrunAtoms, wsPat, tryD]
      | cons c rest =>
          by_cases hc : jsWs c = true
          · rw [scanRepl, mrunSegs_wsPat_pos c rest hc]
            dsimp only
            have hrlen : (rest.drop (rest.takeWhile jsWs).length).length ≤ rest.length := by
              rw [List.length_drop]; omega
            have hlt : (rest.drop (rest.takeWhile jsWs).length).length ≠ (c :: rest).length := by
              simp only [List.length_cons]
              omega
            rw [if_neg hlt]
            have hfuel : (rest.drop (rest.takeWhile jsWs).length).length < fuel := by
              simp only [List.length_cons] at hlen
              omega
            obtain ⟨ihA, ihC⟩ := ih _ hfuel
            have hheadr : ∀ d, (rest.drop (rest.takeWhile jsWs).length).head? = some d →
                jsWs d = false := by
              rw [drop_takeWhile_length]
              exact head_dropWhile_false jsWs rest
            constructor
            · intro x hx hwx
              simp only [applyTmpl, spaceTmpl, List.flatMap_cons, List.flatMap_nil,
                List.append_nil, List.cons_append, List.nil_append, List.mem_cons] at hx
              rcases hx with rfl | hx
              · rfl
              · exact ihA x hx hwx
            · have hjoin : ∀ y ∈ (scanRepl wsPat spaceTmpl fuel
                  (rest.drop (rest.takeWhile jsWs).length)).head?,
                  ¬(jsWs ' ' = true ∧ jsWs y = true) := by
                intro y hy
                rw [scanRepl_ws_head fuel _ hheadr] at hy
                have := hheadr y hy
                simp [this]
              have : List.Chain' (fun a b => ¬(jsWs a = true ∧ jsWs b = true))
                  (' ' :: scanRepl wsPat spaceTmpl fuel
                    (rest.drop (rest.takeWhile jsWs).length)) :=
                List.chain'_cons'.mpr ⟨hjoin, ihC⟩
              simpa [applyTmpl, spaceTmpl] using this
          · rw [scanRepl, mrunSegs_wsPat_neg c rest (by simpa using hc)]
            have hfuel : rest.length < fuel := by
              simp only [List.length_cons] at hlen
              omega
            obtain ⟨ihA, ihC⟩ := ih rest hfuel
            constructor
            · intro x hx hwx
              rcases List.mem_cons.mp hx with rfl | hx
              · exact absurd hwx (by simpa using hc)
              · exact ihA x hx hwx
            · refine List.chain'_cons'.mpr ⟨?_, ihC⟩
              intro y _
              simp only [not_and]
              intro hcc
              exact absurd hcc (by simpa using hc)

/-- Claim C10: for every input, `normalizePdfText` returns text in which
every whitespace character is a single ASCII space and no two consecutive
characters are both whitespace (the final pass collapses every whitespace
run to one space). -/
theorem normalizePdfText_collapsed :
    ∀ s : String,
      (∀ c ∈ (normalizePdfText s).data, jsWs c = true → c = ' ') ∧
      (normalizePdfText s).data.Chain'
        (fun a b => ¬(jsWs a = true ∧ jsWs b = true)) := by
  intro s
  rw [normalizePdfText]
  dsimp only
  rw [runRepl]
  exact scanRepl_ws_collapsed _ _ (by omega)

/-- One family `exec` loop without its dedup set: the raw sequence of
match captures, in text order. -/
def execMatches (pat : List Seg) : ℕ → List Char → List Caps
  | 0, _ => []
  | fuel + 1, s =>
      match findFirst pat s with
      | none => []
      | some (caps, pos, r) =>
          if r.length = pos.length then []
          else caps :: execMatches pat fuel r

/-- First-seen deduplication by key, relative to already-seen keys. -/
def dedupFirstSeen (key : Caps → List Char) :
    List Caps → List (List Char) → List Caps
  | [], _ => []
  | c :: cs, seen =>
      if key c ∈ seen then dedupFirstSeen key cs seen
      else c :: dedupFirstSeen key cs (key c :: seen)

/-- Each family loop is the first-seen dedup of its raw match sequence. -/
theorem execDedup_eq (pat : List Seg) (key : Caps → List Char)
    (mk : Caps → LineItem) :
    ∀ (fuel : ℕ) (s : List Char) (seen : List (List Char)),
      execDedup pat key mk fuel s seen =
        (dedupFirstSeen key (execMatches pat fuel s) seen).map mk := by
  intro fuel
  induction fuel with
  | zero => intro s seen; rfl
  | succ fuel ih =>
      intro s seen
      rw [execDedup, execMatches]
      cases h : findFirst pat s with
      | none => rfl
      | some r =>
          obtain ⟨caps, pos, rem⟩ := r
          by_cases hl : rem.length = pos.length
          · simp [hl, dedupFirstSeen]
          · by_cases hk : key caps ∈ seen
            · simp [hl, hk, dedupFirstSeen, ih]
            · simp [hl, hk, dedupFirstSeen, ih]

/-- First-seen dedup emits no already-seen key and pairwise-distinct keys. -/
theorem dedupFirstSeen_spec (key : Caps → List Char) :
    ∀ (l : List Caps) (seen : List (List Char)),
      (∀ c ∈ dedupFirstSeen key l seen, key c ∉ seen) ∧
      (dedupFirstSeen key l seen).Pairwise (fun a b => key a ≠ key b) := by
  intro l
  induction l with
  | nil =>
      intro seen
      exact ⟨by simp [dedupFirstSeen], by simp [dedupFirstSeen]⟩
  | cons c cs ih =>
      intro seen
      by_cases hk : key c ∈ seen
      · rw [dedupFirstSeen, if_pos hk]
        exact ih seen
      · rw [dedupFirstSeen, if_neg hk]
        constructor
        · intro d hd
          rcases List.mem_cons.mp hd with rfl | hd
          · exact hk
          · have hni := (ih (key c :: seen)).1 d hd
            exact fun hmem => hni (List.mem_cons_of_mem _ hmem)
        · refine List.pairwise_cons.mpr ⟨?_, (ih (key c :: seen)).2⟩
          intro d hd heq
          exact (ih (key c :: seen)).1 d hd (heq ▸ List.mem_cons_self _ _)

/-- First-seen dedup is an order-preserving subsequence of the matches. -/
theorem dedupFirstSeen_sublist (key : Caps → List Char) :
    ∀ (l : List Caps) (seen : List (List Char)),
      List.Sublist (dedupFirstSeen key l seen) l := by
  intro l
  induction l with
  | nil => intro seen; simp [dedupFirstSeen]
  | cons c cs ih =>
      intro seen
      by_cases hk : key c ∈ seen
      · rw [dedupFirstSeen, if_pos hk]
        exact (ih seen).trans (List.sublist_cons_self c cs)
      · rw [dedupFirstSeen, if_neg hk]
        exact (ih (key c :: seen)).cons₂ c

/-- Claim C4 counterexample: the source text lists an SVC item first, then
two VDURACare occurrences agreeing on (partNo, qty, extendedPrice) and
differing only in months.  Under the claim, the second care occurrence
would be discarded (same composite key) and the SVC item would come first
(text order); the code instead emits both care occurrences (its care dedup
key is partNo-qty-months) and places them before the SVC item (per-family
passes). -/
theorem c4_dedup_order_counterexample :
    extractLineItems
        "SVC-A B 1 1 1 2 VDP-VDURACare-1-A B 1 2 1 1 9 VDP-VDURACare-1-A B 1 3 1 1 9" =
      [⟨"VDP-VDURACare-1-A", "B", 1, some 2, 1, 1, 9⟩,
       ⟨"VDP-VDURACare-1-A", "B", 1, some 3, 1, 1, 9⟩,
       ⟨"SVC-A", "B", 1, none, 1, 1, 2⟩] ∧
    (⟨"VDP-VDURACare-1-A", "B", 1, some 2, 1, 1, 9⟩ : LineItem).partNo =
      (⟨"VDP-VDURACare-1-A", "B", 1, some 3, 1, 1, 9⟩ : LineItem).partNo ∧
    (⟨"VDP-VDURACare-1-A", "B", 1, some 2, 1, 1, 9⟩ : LineItem).qty =
      (⟨"VDP-VDURACare-1-A", "B", 1, some 3, 1, 1, 9⟩ : LineItem).qty ∧
    (⟨"VDP-VDURACare-1-A", "B", 1, some 2, 1, 1, 9⟩ : LineItem).extendedPrice =
      (⟨"VDP-VDURACare-1-A", "B", 1, some 3, 1, 1, 9⟩ : LineItem).extendedPrice ∧
    (⟨"VDP-VDURACare-1-A", "B", 1, some 2, 1, 1, 9⟩ : LineItem) ≠
      ⟨"VDP-VDURACare-1-A", "B", 1, some 3, 1, 1, 9⟩ := by
  refine ⟨by decide, rfl, rfl, rfl, by decide⟩

/-- Claim C4 (amended): `extractLineItems` runs three family passes in
order (VDURACare, SVC, VCH) and concatenates their outputs; within each
pass, matches are deduplicated first-seen by the raw string key of that
family — `partNo-qty-months` for VDURACare, `partNo-qty-extendedPrice`
for SVC and VCH — so each pass preserves the order of first appearance of
its matches in the text and emits pairwise-distinct keys. -/
theorem extractLineItems_dedup_per_family :
    ∀ text : String,
      extractLineItems text =
        (dedupFirstSeen keyCare (execMatches vduraCareLinePat
            ((normalizePdfText text).data.length + 1)
            (normalizePdfText text).data) []).map mkCare ++
        (dedupFirstSeen keySvcVch (execMatches svcLinePat
            ((normalizePdfText text).data.length + 1)
            (normalizePdfText text).data) []).map mkSvcVch ++
        (dedupFirstSeen keySvcVch (execMatches vchLinePat
            ((normalizePdfText text).data.length + 1)
            (normalizePdfText text).data) []).map mkSvcVch ∧
      (dedupFirstSeen keyCare (execMatches vduraCareLinePat
          ((normalizePdfText text).data.length + 1)
          (normalizePdfText text).data) []).Pairwise
        (fun a b => keyCare a ≠ keyCare b) ∧
      (dedupFirstSeen keySvcVch (execMatches svcLinePat
          ((normalizePdfText text).data.length + 1)
          (normalizePdfText text).data) []).Pairwise
        (fun a b => keySvcVch a ≠ keySvcVch b) ∧
      (dedupFirstSeen keySvcVch (execMatches vchLinePat
          ((normalizePdfText text).data.length + 1)
          (normalizePdfText text).data) []).Pairwise
        (fun a b => keySvcVch a ≠ keySvcVch b) ∧
      List.Sublist
        (dedupFirstSeen keyCare (execMatches vduraCareLinePat
          ((normalizePdfText text).data.length + 1)
          (normalizePdfText text).data) [])
        (execMatches vduraCareLinePat
          ((normalizePdfText text).data.length + 1)
          (normalizePdfText text).data) ∧
      List.Sublist
        (dedupFirstSeen keySvcVch (execMatches svcLinePat
          ((normalizePdfText text).data.length + 1)
          (normalizePdfText text).data) [])
        (execMatches svcLinePat ((normalizePdfText text).data.length + 1)
          (normalizePdfText text).data) ∧
      List.Sublist
        (dedupFirstSeen keySvcVch (execMatches vchLinePat
          ((normalizePdfText text).data.length + 1)
          (normalizePdfText text).data) [])
        (execMatches vchLinePat ((normalizePdfText text).data.length + 1)
          (normalizePdfText text).data) := by
  intro text
  refine ⟨?_, (dedupFirstSeen_spec _ _ _).2, (dedupFirstSeen_spec _ _ _).2,
    (dedupFirstSeen_spec _ _ _).2, dedupFirstSeen_sublist _ _ _,
    dedupFirstSeen_sublist _ _ _, dedupFirstSeen_sublist _ _ _⟩
  rw [extractLineItems]
  rw [execDedup_eq, execDedup_eq, execDedup_eq]

/-- Claim C9 counterexample: a VCH row with QTY `0` in the text yields a
LineItem with `qty = 0`, violating the invariant `qty > 0`. -/
theorem c9_qty_zero_counterexample :
    extractLineItems "VCH-A B 0 1 1 0" = [⟨"VCH-A", "B", 0, none, 1, 1, 0⟩] ∧
    ¬(0 < (⟨"VCH-A", "B", 0, none, 1, 1, 0⟩ : LineItem).qty) :=
  ⟨by decide, by decide⟩

/-- A successful magnitude parse is non-negative. -/
theorem parseFloatMag_nonneg (u : List Char) (q : ℚ)
    (h : parseFloatJS.parseFloatMag u = some q) : 0 ≤ q := by
  rw [parseFloatJS.parseFloatMag] at h
  split at h
  · try dsimp only at h
    split at h
    · exact absurd h (by simp)
    · injection h with h2
      subst h2
      positivity
  · try dsimp only at h
    split at h
    · exact absurd h (by simp)
    · injection h with h2
      subst h2
      positivity

theorem mem_of_mem_dropWhileChar (p : Char → Bool) :
    ∀ (l : List Char) (x : Char), x ∈ l.dropWhile p → x ∈ l := by
  intro l
  induction l with
  | nil => intro x hx; simp at hx
  | cons a t ih =>
      intro x hx
      by_cases hp : p a = true
      · rw [List.dropWhile_cons, if_pos hp] at hx
        exact List.mem_cons_of_mem a (ih x hx)
      · rw [List.dropWhile_cons, if_neg hp] at hx
        exact hx

/-- Currency strings without a minus sign parse to non-negative values. -/
theorem parseCurrency_nonneg (s : String) (hnd : '-' ∉ s.data) :
    0 ≤ parseCurrency s := by
  rw [parseCurrency]
  split
  · exact le_refl 0
  · have hnd2 : '-' ∉ s.data.filter fun c => !stripCur c :=
      fun hm => hnd (List.mem_of_mem_filter hm)
    have hnd3 : '-' ∉ (s.data.filter fun c => !stripCur c).dropWhile jsWs :=
      fun hm => hnd2 (mem_of_mem_dropWhileChar jsWs _ '-' hm)
    rw [parseFloatJS]
    split
    · rename_i r heq
      rw [heq] at hnd3
      exact absurd (List.mem_cons_self '-' r) hnd3
    · rename_i r heq
      cases hm : parseFloatJS.parseFloatMag r with
      | none => simp [hm]
      | some q =>
          simp only [hm, Option.getD_some]
          exact parseFloatMag_nonneg r q hm
    · cases hm : parseFloatJS.parseFloatMag
          ((s.data.filter fun c => !stripCur c).dropWhile jsWs) with
      | none => simp [hm]
      | some q =>
          simp only [hm, Option.getD_some]
          exact parseFloatMag_nonneg _ q hm

/-- Atom compatibility is monotone in the predicate. -/
theorem AtomOK_mono (Q R : Char → Prop) (himp : ∀ c, Q c → R c) :
    ∀ t : Atom, AtomOK Q t → AtomOK R t := by
  intro t
  cases t with
  | lit ci cs => exact fun h a b ha he => himp b (h a b ha he)
  | cls f => exact fun h c hc => himp c (h c hc)
  | rep f lo hi lz => exact fun h c hc => himp c (h c hc)
  | look p => exact fun _ => trivial

/-- Any atom satisfies a universally-true predicate. -/
theorem AtomOK_of_forall (Q : Char → Prop) (h : ∀ c, Q c) :
    ∀ t : Atom, AtomOK Q t := by
  intro t
  cases t with
  | lit ci cs => exact fun _ b _ _ => h b
  | cls f => exact fun c _ => h c
  | rep f lo hi lz => exact fun c _ => h c
  | look p => trivial

/-- The currency-group atoms consume no minus sign. -/
theorem curAtoms_noDash : ∀ t ∈ curAtoms, AtomOK (fun c => c ≠ '-') t := by
  intro t ht
  fin_cases ht
  · exact fun c hc he => absurd (he ▸ hc) (by decide)
  · exact fun c hc he => absurd (he ▸ hc) (by decide)
  · exact fun c hc he => absurd (he ▸ hc) (by decide)

/-- If every group numbered `i` in the pattern is a currency group, then
capture `i` of any match parses to a non-negative amount. -/
theorem price_cap_nonneg (pat : List Seg) (pos rem : List Char) (caps : Caps)
    (i : ℕ)
    (hpat : ∀ g atoms, (some g, atoms) ∈ pat → g = i → atoms = curAtoms)
    (hrun : mrunSegs pat pos [] = some (caps, rem)) :
    0 ≤ parseCurrency ⟨capGet caps i⟩ := by
  have hsound := mrunSegs_caps_sound (fun g c => g = i → c ≠ '-') pat pos [] caps
    rem ?hOK hrun
  case hOK =>
    intro g atoms hm t ht
    by_cases hg : g = i
    · have hat : atoms = curAtoms := hpat g atoms hm hg
      subst hat
      exact AtomOK_mono _ _ (fun c hc _ => hc) t (curAtoms_noDash t ht)
    · exact AtomOK_of_forall _ (fun c hgi => absurd hgi hg) t
  refine parseCurrency_nonneg _ ?_
  show '-' ∉ capGet caps i
  rw [capGet]
  cases hfind : caps.find? (fun p => p.1 == i) with
  | none => exact List.not_mem_nil '-'
  | some pr =>
      obtain ⟨j, cap⟩ := pr
      have hj : j = i := by simpa using List.find?_some hfind
      subst hj
      have hmem : (j, cap) ∈ caps := List.mem_of_find?_eq_some hfind
      rcases hsound j cap hmem with hin | hch
      · simp at hin
      · exact fun hdm => hch '-' hdm rfl rfl

/-- `findFirst` succeeds by matching the pattern at the returned position
suffix. -/
theorem findFirst_inv (pat : List Seg) :
    ∀ (s : List Char) (caps : Caps) (pos rem : List Char),
      findFirst pat s = some (caps, pos, rem) →
      mrunSegs pat pos [] = some (caps, rem) := by
  intro s
  induction s with
  | nil =>
      intro caps pos rem h
      rw [findFirst] at h
      cases hm : mrunSegs pat [] [] with
      | none => rw [hm] at h; simp at h
      | some r2 =>
          obtain ⟨c2, r3⟩ := r2
          rw [hm] at h
          simp only [Option.some.injEq, Prod.mk.injEq] at h
          obtain ⟨rfl, rfl, rfl⟩ := h
          exact hm
  | cons c t ih =>
      intro caps pos rem h
      rw [findFirst] at h
      cases hm : mrunSegs pat (c :: t) [] with
      | some r2 =>
          obtain ⟨c2, r3⟩ := r2
          rw [hm] at h
          simp only [Option.some.injEq, Prod.mk.injEq] at h
          obtain ⟨rfl, rfl, rfl⟩ := h
          exact hm
      | none =>
          rw [hm] at h
          exact ih caps pos rem h

/-- Every item emitted by a family loop is built from the captures of a
successful pattern match. -/
theorem execDedup_mem (pat : List Seg) (key : Caps → List Char)
    (mk : Caps → LineItem) :
    ∀ (fuel : ℕ) (s : List Char) (seen : List (List Char)) (item : LineItem),
      item ∈ execDedup pat key mk fuel s seen →
      ∃ caps pos rem, item = mk caps ∧ mrunSegs pat pos [] = some (caps, rem) := by
  intro fuel
  induction fuel with
  | zero => intro s seen item h; simp [execDedup] at h
  | succ fuel ih =>
      intro s seen item h
      rw [execDedup] at h
      cases hf : findFirst pat s with
      | none => rw [hf] at h; simp at h
      | some r =>
          obtain ⟨caps, pos, rem⟩ := r
          rw [hf] at h
          dsimp only at h
          by_cases hl : rem.length = pos.length
          · rw [if_pos hl] at h; simp at h
          · rw [if_neg hl] at h
            by_cases hk : key caps ∈ seen
            · rw [if_pos hk] at h
              exact ih rem seen item h
            · rw [if_neg hk] at h
              rcases List.mem_cons.mp h with rfl | h2
              · exact ⟨caps, pos, rem, rfl, findFirst_inv pat s caps pos rem hf⟩
              · exact ih rem _ item h2

/-- Groups 5, 6, 7 of the VDURACare pattern are its currency groups. -/
theorem carePat_price_groups (i : ℕ) (hi : i = 5 ∨ i = 6 ∨ i = 7) :
    ∀ g atoms, (some g, atoms) ∈ vduraCareLinePat → g = i → atoms = curAtoms := by
  intro g atoms hm hg
  subst hg
  simp only [vduraCareLinePat, curSep, List.mem_cons, List.not_mem_nil,
    or_false] at hm
  rcases hm with h|h|h|h|h|h|h|h|h|h|h|h|h <;> simp_all

/-- Groups 4, 5, 6 of the SVC pattern are its currency groups. -/
theorem svcPat_price_groups (i : ℕ) (hi : i = 4 ∨ i = 5 ∨ i = 6) :
    ∀ g atoms, (some g, atoms) ∈ svcLinePat → g = i → atoms = curAtoms := by
  intro g atoms hm hg
  subst hg
  simp only [svcLinePat, curSep, List.mem_cons, List.not_mem_nil, or_false] at hm
  rcases hm with h|h|h|h|h|h|h|h|h|h|h <;> simp_all

/-- Groups 4, 5, 6 of the VCH pattern are its currency groups. -/
theorem vchPat_price_groups (i : ℕ) (hi : i = 4 ∨ i = 5 ∨ i = 6) :
    ∀ g atoms, (some g, atoms) ∈ vchLinePat → g = i → atoms = curAtoms := by
  intro g atoms hm hg
  subst hg
  simp only [vchLinePat, curSep, List.mem_cons, List.not_mem_nil, or_false] at hm
  rcases hm with h|h|h|h|h|h|h|h|h|h|h <;> simp_all

/-- Claim C9 (amended): every LineItem produced by `extractLineItems` has
`qty ≥ 0` and non-negative `listPrice`, `discountPrice` and
`extendedPrice` (the source does not rule out `qty = 0`, so `qty > 0` is
weakened to `qty ≥ 0`). -/
theorem extractLineItems_nonneg :
    ∀ text : String, ∀ item ∈ extractLineItems text,
      0 ≤ item.qty ∧ 0 ≤ item.listPrice ∧ 0 ≤ item.discountPrice ∧
      0 ≤ item.extendedPrice := by
  intro text item hm
  rw [extractLineItems] at hm
  rcases List.mem_append.mp hm with hm2 | hvch
  · rcases List.mem_append.mp hm2 with hcare | hsvc
    · obtain ⟨caps, pos, rem, rfl, hrun⟩ := execDedup_mem _ _ _ _ _ _ _ hcare
      refine ⟨by simp [mkCare, parseIntDec], ?_, ?_, ?_⟩
      · exact price_cap_nonneg _ _ _ caps 5
          (carePat_price_groups 5 (Or.inl rfl)) hrun
      · exact price_cap_nonneg _ _ _ caps 6
          (carePat_price_groups 6 (Or.inr (Or.inl rfl))) hrun
      · exact price_cap_nonneg _ _ _ caps 7
          (carePat_price_groups 7 (Or.inr (Or.inr rfl))) hrun
    · obtain ⟨caps, pos, rem, rfl, hrun⟩ := execDedup_mem _ _ _ _ _ _ _ hsvc
      refine ⟨by simp [mkSvcVch, parseIntDec], ?_, ?_, ?_⟩
      · exact price_cap_nonneg _ _ _ caps 4
          (svcPat_price_groups 4 (Or.inl rfl)) hrun
      · exact price_cap_nonneg _ _ _ caps 5
          (svcPat_price_groups 5 (Or.inr (Or.inl rfl))) hrun
      · exact price_cap_nonneg _ _ _ caps 6
          (svcPat_price_groups 6 (Or.inr (Or.inr rfl))) hrun
  · obtain ⟨caps, pos, rem, rfl, hrun⟩ := execDedup_mem _ _ _ _ _ _ _ hvch
    refine ⟨by simp [mkSvcVch, parseIntDec], ?_, ?_, ?_⟩
    · exact price_cap_nonneg _ _ _ caps 4
        (vchPat_price_groups 4 (Or.inl rfl)) hrun
    · exact price_cap_nonneg _ _ _ caps 5
        (vchPat_price_groups 5 (Or.inr (Or.inl rfl))) hrun
    · exact price_cap_nonneg _ _ _ caps 6
        (vchPat_price_groups 6 (Or.inr (Or.inr rfl))) hrun

/-- Witness for the amended C9 at a short SVC-only text. -/
theorem extractLineItems_nonneg_witness :
    (⟨"SVC-A", "B", 2, none, 1, 1, 2⟩ : LineItem) ∈
      extractLineItems "SVC-A B 2 1 1 2" ∧
    (0 ≤ (⟨"SVC-A", "B", 2, none, 1, 1, 2⟩ : LineItem).qty ∧
     0 ≤ (⟨"SVC-A", "B", 2, none, 1, 1, 2⟩ : LineItem).listPrice ∧
     0 ≤ (⟨"SVC-A", "B", 2, none, 1, 1, 2⟩ : LineItem).discountPrice ∧
     0 ≤ (⟨"SVC-A", "B", 2, none, 1, 1, 2⟩ : LineItem).extendedPrice) :=
  ⟨by decide, extractLineItems_nonneg "SVC-A B 2 1 1 2" _ (by decide)⟩

/-- Digit characters round-trip through their code points. -/
theorem charCode_digit (d : ℕ) (hd : d < 10) :
    charCode (Char.ofNat (48 + d)) = 48 + d := by
  interval_cases d <;> rfl

/-- The fuelled digit expansion agrees with `Nat.digits`. -/
theorem natDigitsAux_eq : ∀ (fuel n : ℕ), n ≤ fuel →
    natDigitsAux fuel n = Nat.digits 10 n := by
  intro fuel
  induction fuel with
  | zero =>
      intro n hn
      interval_cases n
      simp [natDigitsAux]
  | succ fuel ih =>
      intro n hn
      cases n with
      | zero => simp [natDigitsAux]
      | succ n =>
          rw [natDigitsAux, ih ((n + 1) / 10) (by
            have := Nat.div_lt_self (Nat.succ_pos n) (by norm_num : 1 < 10)
            omega)]
          rw [Nat.digits_def' (by norm_num : 1 < 10) (Nat.succ_pos n)]

/-- Folding the rendered digits recomputes the value. -/
theorem digitsVal_rev_map (L : List ℕ) (hL : ∀ d ∈ L, d < 10) : ∀ a : ℕ,
    (L.reverse.map fun d => Char.ofNat (48 + d)).foldl
        (fun acc c => 10 * acc + (charCode c - 48)) a =
      a * 10 ^ L.length + Nat.ofDigits 10 L := by
  induction L with
  | nil => intro a; simp
  | cons d L ih =>
      intro a
      have hd : d < 10 := hL d (List.mem_cons_self d L)
      have hL2 : ∀ x ∈ L, x < 10 := fun x hx => hL x (List.mem_cons_of_mem d hx)
      rw [List.reverse_cons, List.map_append, List.foldl_append, ih hL2 a]
      simp only [List.map_cons, List.map_nil, List.foldl_cons, List.foldl_nil,
        charCode_digit d hd, Nat.ofDigits_cons, List.length_cons]
      have : 48 + d - 48 = d := by omega
      rw [this]
      ring

/-- Rendering then refolding a natural number is the identity. -/
theorem digitsVal_natToChars (n : ℕ) : digitsVal (natToChars n) = n := by
  by_cases hn : n = 0
  · subst hn; rfl
  · rw [natToChars, if_neg hn, natDigitsAux_eq n n (le_refl n), digitsVal]
    rw [digitsVal_rev_map (Nat.digits 10 n)
      (fun d hd => Nat.digits_lt_base (by norm_num) hd) 0]
    simp [Nat.ofDigits_digits]

/-- Rendered digits are digit characters. -/
theorem natToChars_digits (n : ℕ) :
    ∀ c ∈ natToChars n, 48 ≤ charCode c ∧ charCode c ≤ 57 := by
  intro c hc
  by_cases hn : n = 0
  · subst hn
    rw [show natToChars 0 = ['0'] from rfl] at hc
    simp only [List.mem_singleton] at hc
    subst hc
    exact ⟨by decide, by decide⟩
  · rw [natToChars, if_neg hn] at hc
    obtain ⟨d, hd, rfl⟩ := List.mem_map.mp hc
    have hd10 : d < 10 := by
      have hmem : d ∈ Nat.digits 10 n := by
        rw [← natDigitsAux_eq n n (le_refl n)]
        exact List.mem_reverse.mp hd
      exact Nat.digits_lt_base (by norm_num) hmem
    rw [charCode_digit d hd10]
    omega

/-- The rendering of a natural number is never empty. -/
theorem natToChars_ne_nil (n : ℕ) : natToChars n ≠ [] := by
  by_cases hn : n = 0
  · subst hn; simp [natToChars]
  · rw [natToChars, if_neg hn]
    intro h
    simp only [List.map_eq_nil_iff, List.reverse_eq_nil_iff] at h
    rw [natDigitsAux_eq n n (le_refl n)] at h
    exact hn (Nat.digits_eq_nil_iff_eq_zero.mp h)

/-- `takeWhile`/`dropWhile` split at the first failing element. -/
theorem takeWhile_dropWhile_append (p : Char → Bool) :
    ∀ (xs : List Char) (y : Char) (ys : List Char),
      (∀ c ∈ xs, p c = true) → p y = false →
      (xs ++ y :: ys).takeWhile p = xs ∧ (xs ++ y :: ys).dropWhile p = y :: ys := by
  intro xs
  induction xs with
  | nil =>
      intro y ys _ hy
      simp [List.takeWhile_cons, List.dropWhile_cons, hy]
  | cons a t ih =>
      intro y ys hall hy
      have ha : p a = true := hall a (List.mem_cons_self a t)
      have ht : ∀ c ∈ t, p c = true := fun c hc => hall c (List.mem_cons_of_mem a hc)
      obtain ⟨h1, h2⟩ := ih y ys ht hy
      simp [List.takeWhile_cons, List.dropWhile_cons, ha, h1, h2]

/-- Characters with digit code points are `\d` and survive the currency
stripping, and are neither sign characters nor whitespace. -/
theorem digit_code_facts (c : Char) (h1 : 48 ≤ charCode c) (h2 : charCode c ≤ 57) :
    jsDigit c = true ∧ stripCur c = false ∧ jsWs c = false ∧
    c ≠ '-' ∧ c ≠ '+' := by
  refine ⟨by simp [jsDigit]; omega, ?_, ?_, ?_, ?_⟩
  · simp only [stripCur, Bool.or_eq_false_iff]
    refine ⟨⟨?_, ?_⟩, ?_⟩
    · simp only [decide_eq_false_iff_not]
      intro he; subst he; exact absurd h1 (by decide)
    · simp only [decide_eq_false_iff_not]
      intro he; subst he; exact absurd h1 (by decide)
    · simp only [jsWs, Bool.or_eq_false_iff, Bool.and_eq_false_iff]
      norm_num; omega
  · simp only [jsWs, Bool.or_eq_false_iff, Bool.and_eq_false_iff]
    norm_num; omega
  · intro he; subst he; exact absurd h1 (by decide)
  · intro he; subst he; exact absurd h1 (by decide)

/-- On input with a non-whitespace, non-sign head, `parseFloat` is its
magnitude parser. -/
theorem parseFloatJS_eq_mag (cs : List Char)
    (hws : ∀ d, cs.head? = some d → jsWs d = false)
    (hsg : ∀ d, cs.head? = some d → d ≠ '-' ∧ d ≠ '+') :
    parseFloatJS cs = parseFloatJS.parseFloatMag cs := by
  have hdrop : cs.dropWhile jsWs = cs := by
    cases cs with
    | nil => rfl
    | cons c t => rw [List.dropWhile_cons, if_neg (by simp [hws c rfl])]
  rw [parseFloatJS, hdrop]
  split
  · exact absurd rfl ((hsg '-' rfl).1)
  · exact absurd rfl ((hsg '+' rfl).2)
  · rfl

/-- Parsing the rendered fixed-point digits recovers `n / 100`. -/
theorem parseFloatMag_render (n : ℕ) :
    parseFloatJS.parseFloatMag (natToChars (n / 100) ++
        '.' :: [Char.ofNat (48 + n / 10 % 10), Char.ofNat (48 + n % 10)]) =
      some ((n : ℚ) / 100) := by
  have h1 : n / 10 % 10 < 10 := Nat.mod_lt _ (by norm_num)
  have h2 : n % 10 < 10 := Nat.mod_lt _ (by norm_num)
  have hip : ∀ c ∈ natToChars (n / 100), jsDigit c = true := fun c hc =>
    (digit_code_facts c (natToChars_digits _ c hc).1 (natToChars_digits _ c hc).2).1
  have hc1 : jsDigit (Char.ofNat (48 + n / 10 % 10)) = true :=
    (digit_code_facts _ (by rw [charCode_digit _ h1]; omega)
      (by rw [charCode_digit _ h1]; omega)).1
  have hc2 : jsDigit (Char.ofNat (48 + n % 10)) = true :=
    (digit_code_facts _ (by rw [charCode_digit _ h2]; omega)
      (by rw [charCode_digit _ h2]; omega)).1
  obtain ⟨htake, hdrop⟩ := takeWhile_dropWhile_append jsDigit (natToChars (n / 100))
    '.' [Char.ofNat (48 + n / 10 % 10), Char.ofNat (48 + n % 10)] hip (by decide)
  rw [parseFloatJS.parseFloatMag]
  rw [hdrop, htake]
  show (if ((natToChars (n / 100)).isEmpty &&
        (List.takeWhile jsDigit [Char.ofNat (48 + n / 10 % 10),
          Char.ofNat (48 + n % 10)]).isEmpty) = true
      then none
      else some ((digitsVal (natToChars (n / 100)) : ℚ) +
        (digitsVal (List.takeWhile jsDigit [Char.ofNat (48 + n / 10 % 10),
          Char.ofNat (48 + n % 10)]) : ℚ) /
          10 ^ (List.takeWhile jsDigit [Char.ofNat (48 + n / 10 % 10),
            Char.ofNat (48 + n % 10)]).length)) =
    some ((n : ℚ) / 100)
  rw [show (List.takeWhile jsDigit
      [Char.ofNat (48 + n / 10 % 10), Char.ofNat (48 + n % 10)]) =
      [Char.ofNat (48 + n / 10 % 10), Char.ofNat (48 + n % 10)] by
    simp [List.takeWhile_cons, hc1, hc2]]
  rw [if_neg (by simp)]
  have hdv2 : digitsVal [Char.ofNat (48 + n / 10 % 10), Char.ofNat (48 + n % 10)] =
      10 * (n / 10 % 10) + n % 10 := by
    simp only [digitsVal, List.foldl_cons, List.foldl_nil,
      charCode_digit _ h1, charCode_digit _ h2]
    omega
  rw [hdv2, digitsVal_natToChars]
  congr 1
  have harith : 100 * (n / 100) + (10 * (n / 10 % 10) + n % 10) = n := by omega
  have hc : ((100 * (n / 100) + (10 * (n / 10 % 10) + n % 10) : ℕ) : ℚ) = (n : ℚ) := by
    exact_mod_cast congrArg (fun x : ℕ => (x : ℚ)) harith
  push_cast at hc ⊢
  rw [show ([Char.ofNat (48 + n / 10 % 10),
      Char.ofNat (48 + n % 10)] : List Char).length = 2 from rfl]
  rw [show ((10 : ℚ) ^ 2) = 100 by norm_num]
  field_simp
  linarith

/-- `parseFloat` on a leading minus negates the magnitude parse. -/
theorem parseFloatJS_neg (cs : List Char) :
    parseFloatJS ('-' :: cs) =
      (parseFloatJS.parseFloatMag cs).map fun q => -q := by
  rw [parseFloatJS]
  rw [show List.dropWhile jsWs ('-' :: cs) = '-' :: cs by
    rw [List.dropWhile_cons]
    simp [jsWs, charCode]]
  rfl

/-- The characters of the rendered digit string survive currency
stripping. -/
theorem render_noStrip (n : ℕ) :
    ∀ c ∈ natToChars (n / 100) ++
        '.' :: [Char.ofNat (48 + n / 10 % 10), Char.ofNat (48 + n % 10)],
      stripCur c = false := by
  have h1 : n / 10 % 10 < 10 := Nat.mod_lt _ (by norm_num)
  have h2 : n % 10 < 10 := Nat.mod_lt _ (by norm_num)
  intro c hc
  rcases List.mem_append.mp hc with hc | hc
  · exact (digit_code_facts c (natToChars_digits _ c hc).1
      (natToChars_digits _ c hc).2).2.1
  · rcases List.mem_cons.mp hc with rfl | hc
    · decide
    · rcases List.mem_cons.mp hc with rfl | hc
      · exact (digit_code_facts _ (by rw [charCode_digit _ h1]; omega)
          (by rw [charCode_digit _ h1]; omega)).2.1
      · rcases List.mem_cons.mp hc with rfl | hc
        · exact (digit_code_facts _ (by rw [charCode_digit _ h2]; omega)
            (by rw [charCode_digit _ h2]; omega)).2.1
        · simp at hc

/-- Claim C8: formatting a 2-decimal value with `formatPrice` and reading
it back with `parseCurrency` is the identity (round-trip at formatting
precision: every `x = m/100` survives exactly). -/
theorem parseCurrency_formatPrice_roundtrip :
    ∀ m : ℤ, parseCurrency (formatPrice ((m : ℚ) / 100)) = (m : ℚ) / 100 := by
  intro m
  have h100 : (100 : ℚ) * ((m : ℚ) / 100) = (m : ℚ) := by field_simp
  rcases le_or_lt 0 m with hm | hm
  · have hq0 : (0 : ℚ) ≤ (m : ℚ) / 100 :=
      div_nonneg (by exact_mod_cast hm) (by norm_num)
    have hfl : Int.floor (100 * |(m : ℚ) / 100| + 1 / 2) = m := by
      rw [abs_of_nonneg hq0, h100]
      refine Int.floor_eq_iff.mpr ⟨by linarith, by linarith⟩
    rw [formatPrice, if_neg (not_lt.mpr hq0), hfl]
    rw [parseCurrency]
    rw [if_neg (by
      intro h
      have hd := congrArg String.data h
      simp at hd)]
    rw [show (String.mk (natToChars (m.toNat / 100) ++
        '.' :: [Char.ofNat (48 + m.toNat / 10 % 10),
                Char.ofNat (48 + m.toNat % 10)])).data.filter
        (fun c => !stripCur c) =
        natToChars (m.toNat / 100) ++
        '.' :: [Char.ofNat (48 + m.toNat / 10 % 10),
                Char.ofNat (48 + m.toNat % 10)] by
      refine List.filter_eq_self.mpr ?_
      intro c hc
      simp [render_noStrip m.toNat c hc]]
    obtain ⟨a, t, hat⟩ := List.exists_cons_of_ne_nil (natToChars_ne_nil (m.toNat / 100))
    have hhead : (natToChars (m.toNat / 100) ++
        '.' :: [Char.ofNat (48 + m.toNat / 10 % 10),
                Char.ofNat (48 + m.toNat % 10)]).head? = some a := by
      rw [hat]; rfl
    have hmema : a ∈ natToChars (m.toNat / 100) := by
      rw [hat]
      exact List.mem_cons_self a t
    have hafacts := digit_code_facts a (natToChars_digits _ a hmema).1
      (natToChars_digits _ a hmema).2
    have hws2 : ∀ d, (natToChars (m.toNat / 100) ++
        '.' :: [Char.ofNat (48 + m.toNat / 10 % 10),
                Char.ofNat (48 + m.toNat % 10)]).head? = some d →
        jsWs d = false := by
      intro d hd
      rw [hhead] at hd
      cases hd
      exact hafacts.2.2.1
    have hsg2 : ∀ d, (natToChars (m.toNat / 100) ++
        '.' :: [Char.ofNat (48 + m.toNat / 10 % 10),
                Char.ofNat (48 + m.toNat % 10)]).head? = some d →
        d ≠ '-' ∧ d ≠ '+' := by
      intro d hd
      rw [hhead] at hd
      cases hd
      exact ⟨hafacts.2.2.2.1, hafacts.2.2.2.2⟩
    rw [parseFloatJS_eq_mag _ hws2 hsg2]
    rw [parseFloatMag_render m.toNat]
    simp only [Option.getD_some]
    have hcast : ((m.toNat : ℕ) : ℚ) = (m : ℚ) := by
      exact_mod_cast Int.toNat_of_nonneg hm
    rw [hcast]
  · have hq0 : (m : ℚ) / 100 < 0 :=
      div_neg_of_neg_of_pos (by exact_mod_cast hm) (by norm_num)
    have habs : |(m : ℚ) / 100| = ((-m : ℤ) : ℚ) / 100 := by
      rw [abs_of_neg hq0]
      push_cast
      ring
    have hfl : Int.floor (100 * |(m : ℚ) / 100| + 1 / 2) = -m := by
      rw [habs]
      have h100n : (100 : ℚ) * (((-m : ℤ) : ℚ) / 100) = ((-m : ℤ) : ℚ) := by
        field_simp
        ring
      rw [h100n]
      refine Int.floor_eq_iff.mpr ⟨?_, ?_⟩ <;> push_cast <;> linarith
    rw [formatPrice, if_pos hq0, hfl]
    rw [parseCurrency]
    rw [if_neg (by
      intro h
      have hd := congrArg String.data h
      simp at hd)]
    rw [show (String.mk ('-' :: (natToChars ((-m).toNat / 100) ++
        '.' :: [Char.ofNat (48 + (-m).toNat / 10 % 10),
                Char.ofNat (48 + (-m).toNat % 10)]))).data.filter
        (fun c => !stripCur c) =
        '-' :: (natToChars ((-m).toNat / 100) ++
        '.' :: [Char.ofNat (48 + (-m).toNat / 10 % 10),
                Char.ofNat (48 + (-m).toNat % 10)]) by
      refine List.filter_eq_self.mpr ?_
      intro c hc
      rcases List.mem_cons.mp hc with rfl | hc
      · decide
      · simp [render_noStrip (-m).toNat c hc]]
    rw [parseFloatJS_neg, parseFloatMag_render (-m).toNat]
    simp only [Option.map_some', Option.getD_some]
    have hcast : (((-m).toNat : ℕ) : ℚ) = ((-m : ℤ) : ℚ) := by
      exact_mod_cast Int.toNat_of_nonneg (by omega)
    rw [hcast]
    push_cast
    ring
